import Mathlib

/-!
Shallow embedding of the `zkp` repository (packages `galois`, `polynomial`,
`kzg`) and proofs about its specification claims.

Modelling conventions:
* Go `*big.Int` values are `ℤ`; `big.Int.Mod` with a positive modulus is
  Euclidean remainder, which matches Lean's `Int.emod` (`%`).
* A `galois.Field` is its order, an `ℤ` (the Go type is `type Field big.Int`).
* A `polynomial.Polynomial` is its backing slice, a `List ℤ` (index `i` is the
  coefficient of the `i`-th power; the slice may hold trailing zero slots).
* Functions that can fail return `GoRes`: `.err` models a Go `error` return,
  `.crash` models a runtime panic (nil-pointer dereference from
  `big.Int.ModInverse` returning nil, out-of-range slice index, or `make`
  with negative length).
* The randomness consumed by `Field.RootOfUnity` through `io.Reader` is
  modelled as the list of successive values produced by `Field.Random`;
  exhausting the list models a failing random source (`.err`).
-/

/-- Outcome of running a Go function: a value, an `error` return, or a
runtime panic. -/
inductive GoRes (α : Type) where
  | ok (val : α) : GoRes α
  | err : GoRes α
  | crash : GoRes α
deriving DecidableEq, Repr

/-- Sequencing of Go computations: an `error` return and a panic both
abort the caller. -/
def GoRes.bind {α β : Type} : GoRes α → (α → GoRes β) → GoRes β
  | .ok a, g => g a
  | .err, _ => .err
  | .crash, _ => .crash

/-- `Field.Add`: `x+y mod f.Order()`. -/
def galois.Add (f x y : ℤ) : ℤ := (x + y) % f

/-- `Field.Sub`: `x-y mod f.Order()`. -/
def galois.Sub (f x y : ℤ) : ℤ := (x - y) % f

/-- `Field.Mul`: `x*y mod f.Order()`. -/
def galois.Mul (f x y : ℤ) : ℤ := (x * y) % f

/-- `Field.Exp`: `x**y mod f.Order()`; the exponents used by the library are
nonnegative, `toNat` records that. -/
def galois.Exp (f x y : ℤ) : ℤ := (x ^ y.toNat) % f

/-- `Field.MultInverse`: `big.Int.ModInverse(x, order)`.  Go returns nil when
`x` and the order are not coprime; that is `none`.  When they are coprime the
result is the unique inverse in `[0, order)`, here produced from the Bezout
coefficient `Int.gcdA`. -/
def galois.MultInverse (f x : ℤ) : Option ℤ :=
  if Int.gcd x f = 1 then some (Int.gcdA x f % f) else none

/-- `Field.Div`: `x*(1/y) mod order`.  The Go code multiplies by the result of
`MultInverse` without a nil check, so a non-invertible `y` is a nil-pointer
panic (`.crash`), not an error return. -/
def galois.Div (f x y : ℤ) : GoRes ℤ :=
  match galois.MultInverse f y with
  | some i => .ok ((x * i) % f)
  | none => .crash

/-- The sampling loop of `Field.RootOfUnity`: draw `x`, set
`root = x^e mod f`, return it unless a primitive root is required and
`root^half = 1`.  `draws` is the stream of values produced by `Field.Random`;
an exhausted stream models a failing random source. -/
def galois.rootLoop (f e half : ℤ) (primitive : Bool) : List ℤ → GoRes ℤ
  | [] => .err
  | x :: rest =>
    let root := galois.Exp f x e
    if primitive = false ∨ galois.Exp f root half ≠ 1 then .ok root
    else galois.rootLoop f e half primitive rest

/-- `Field.RootOfUnity(r, n, primitive)`: odd `n` is an error; `n = 0` panics
inside `big.Int.DivMod`; when `n` divides `order - 1` (remainder zero) the
code returns `1` immediately; otherwise it enters the sampling loop with
exponent `(order-1)/n` and primitivity check exponent `n/2`. -/
def galois.RootOfUnity (f : ℤ) (draws : List ℤ) (n : ℕ) (primitive : Bool) : GoRes ℤ :=
  if n % 2 = 1 then .err
  else if (n : ℤ) = 0 then .crash
  else if (f - 1) % (n : ℤ) = 0 then .ok 1
  else galois.rootLoop f ((f - 1) / (n : ℤ)) ((n : ℤ) / 2) primitive draws

/-- The scan of `Polynomial.Degree`: walk indices `d, d-1, ..., 1` and return
the first index holding a nonzero coefficient, else `0`. -/
def polynomial.findDeg (p : List ℤ) : ℕ → ℕ
  | 0 => 0
  | d + 1 => if p.getD (d + 1) 0 ≠ 0 then d + 1 else polynomial.findDeg p d

/-- `Polynomial.Degree`: highest index `≥ 1` with a nonzero coefficient, `0`
otherwise (also for the zero polynomial). -/
def polynomial.Degree (p : List ℤ) : ℕ := polynomial.findDeg p (p.length - 1)

/-- `NewZeroPolynomial(maxDegree)`: `make` of length `maxDegree+1` filled with
zeros; a negative length makes Go's `make` panic. -/
def polynomial.NewZeroPolynomial (maxDegree : ℤ) : GoRes (List ℤ) :=
  if maxDegree + 1 < 0 then .crash else .ok (List.replicate (maxDegree + 1).toNat 0)

/-- One cell of `ComputePowers`: `xs[0] = 1`, `xs[i] = f.Mul(xs[i-1], x)`. -/
def polynomial.powCell (x f : ℤ) : ℕ → ℤ
  | 0 => 1
  | i + 1 => galois.Mul f (polynomial.powCell x f i) x

/-- `ComputePowers(x, n, f)`: the sequence `xs[0..n)` of the recurrence above;
`n = 0` yields the empty sequence. -/
def polynomial.ComputePowers (x : ℤ) (n : ℕ) (f : ℤ) : List ℤ :=
  (List.range n).map (polynomial.powCell x f)

/-- `Polynomial.Clone`: allocates `Degree p + 1` zero slots, then copies every
slot of the receiver's backing storage into it — indexing out of range (and
panicking) when the storage extends past the degree. -/
def polynomial.Clone (p : List ℤ) : GoRes (List ℤ) :=
  if p.length ≤ polynomial.Degree p + 1 then
    .ok ((List.range (polynomial.Degree p + 1)).map fun i => p.getD i 0)
  else .crash

/-- `Polynomial.Evaluate`: Horner's method.  `y` starts at `0`; for
`i = len-1, ..., 1` it does `y = f.Add(y, p[i]); y = f.Mul(y, x)`, and finally
`y = f.Add(y, p[0])` — which indexes out of range on an empty slice. -/
def polynomial.Evaluate (p : List ℤ) (x f : ℤ) : GoRes ℤ :=
  match p with
  | [] => .crash
  | c0 :: rest =>
    .ok (galois.Add f
      (rest.reverse.foldl (fun y c => galois.Mul f (galois.Add f y c) x) 0) c0)

/-- The index pairs `(i, j)` visited by the two nested loops of
`Polynomial.Mul`, in iteration order. -/
def polynomial.mulPairs (a b : ℕ) : List (ℕ × ℕ) :=
  (List.range a).flatMap fun i => (List.range b).map fun j => (i, j)

/-- One iteration of `Polynomial.Mul`'s inner loop:
`prod[i+j] = f.Add(prod[i+j], f.Mul(p[i], m[j]))`. -/
def polynomial.mulStep (p m : List ℤ) (f : ℤ) (prod : List ℤ) (ij : ℕ × ℕ) : List ℤ :=
  prod.set (ij.1 + ij.2)
    (galois.Add f (prod.getD (ij.1 + ij.2) 0) (galois.Mul f (p.getD ij.1 0) (m.getD ij.2 0)))

/-- `Polynomial.Mul`: allocate `Degree p + Degree m + 1` zero slots, then
accumulate `f.Mul(p[i], m[j])` into slot `i+j` over the full backing storage
of both operands — panicking if some visited `i+j` falls outside the
allocated product (which happens exactly when storage extends past the
degrees). -/
def polynomial.Mul (p m : List ℤ) (f : ℤ) : GoRes (List ℤ) :=
  if ∀ ij ∈ polynomial.mulPairs p.length m.length,
      ij.1 + ij.2 < polynomial.Degree p + polynomial.Degree m + 1 then
    .ok ((polynomial.mulPairs p.length m.length).foldl (polynomial.mulStep p m f)
      (List.replicate (polynomial.Degree p + polynomial.Degree m + 1) 0))
  else .crash

/-- `Polynomial.Add`: allocates `max(Degree p, Degree x) + 1` zero slots, then
runs `result[i] = f.Add(result[i], p[i])` over all of `p`'s storage and then
the same over all of `x`'s storage — indexing out of range (panic) when
either storage is longer than the allocated result. -/
def polynomial.Add (p x : List ℤ) (f : ℤ) : GoRes (List ℤ) :=
  if p.length ≤ max (polynomial.Degree p) (polynomial.Degree x) + 1 ∧
      x.length ≤ max (polynomial.Degree p) (polynomial.Degree x) + 1 then
    .ok ((List.range (max (polynomial.Degree p) (polynomial.Degree x) + 1)).map fun i =>
      let a : ℤ := if i < p.length then galois.Add f 0 (p.getD i 0) else 0
      if i < x.length then galois.Add f a (x.getD i 0) else a)
  else .crash

/-- `Polynomial.Sub`: `p.Add(x.Mul([-1], f), f)`. -/
def polynomial.Sub (p x : List ℤ) (f : ℤ) : GoRes (List ℤ) :=
  GoRes.bind (polynomial.Mul x [-1] f) fun m => polynomial.Add p m f

/-- The loop of `Polynomial.Div`.  While `numerator.Degree() ≥
divisor.Degree()`: set `quotient[ip-id] = f.Div(numerator[ip], divisor[id])`,
recompute `numerator = p.Sub(divisor.Mul(quotient, f), f)`, and break once the
numerator is the literal zero polynomial.  The fuel argument only bounds the
iteration count for Lean's termination checker; `Degree p + 2` exceeds the
length of every terminating run of the Go loop (each non-crashing iteration
strictly lowers the numerator's degree or breaks), so exhausting it (`.crash`)
is unreachable from `polynomial.Div`. -/
def polynomial.divLoop (p d : List ℤ) (f : ℤ) : ℕ → List ℤ → List ℤ → GoRes (List ℤ × List ℤ)
  | 0, _, _ => .crash
  | fuel + 1, q, num =>
    if polynomial.Degree num < polynomial.Degree d then .ok (q, num)
    else
      GoRes.bind (galois.Div f (num.getD (polynomial.Degree num) 0)
          (d.getD (polynomial.Degree d) 0)) fun c =>
      GoRes.bind (polynomial.Mul d
          (q.set (polynomial.Degree num - polynomial.Degree d) c) f) fun m =>
      GoRes.bind (polynomial.Sub p m f) fun num2 =>
      if polynomial.Degree num2 = 0 ∧ num2.getD 0 0 = 0 then
        .ok (q.set (polynomial.Degree num - polynomial.Degree d) c, num2)
      else
        polynomial.divLoop p d f fuel
          (q.set (polynomial.Degree num - polynomial.Degree d) c) num2

/-- `Polynomial.Div`: clone the dividend, allocate the quotient with
`NewZeroPolynomial(numerator.Degree() - divisor.Degree())` (a panic when that
is `≤ -2`), and run the long-division loop. -/
def polynomial.Div (p d : List ℤ) (f : ℤ) : GoRes (List ℤ × List ℤ) :=
  GoRes.bind (polynomial.Clone p) fun num =>
  GoRes.bind (polynomial.NewZeroPolynomial
      ((polynomial.Degree num : ℤ) - (polynomial.Degree d : ℤ))) fun q =>
  polynomial.divLoop p d f (polynomial.Degree num + 2) q num

/-- `Polynomial.Eq`: false on a degree mismatch, else compare coefficients up
to the (common) degree — indexing out of range when a backing slice is
shorter than `degree + 1` (only possible for an empty slice). -/
def polynomial.Eq (p x : List ℤ) : GoRes Bool :=
  if polynomial.Degree p ≠ polynomial.Degree x then .ok false
  else if p.length ≤ polynomial.Degree p ∨ x.length ≤ polynomial.Degree p then .crash
  else .ok ((List.range (polynomial.Degree p + 1)).all fun i =>
    p.getD i 0 == x.getD i 0)

/-- `EvaluateOnPowers`, generic over the group: `y = ScalarBaseMult(0)`, then
for each `i`: `tmp = ScalarMult(xPowers[i], p[i]); y = Add(y, tmp)`.  A length
mismatch between the coefficients and the encoded powers is an error return.
The group is presented by its operations: `gadd` (point addition), `gsmul`
(scalar multiplication of a point), and `B` (scalar multiplication of the
base point). -/
def polynomial.EvaluateOnPowers {G : Type} (gadd : G → G → G) (gsmul : G → ℤ → G)
    (B : ℤ → G) (p : List ℤ) (xPowers : List G) : GoRes G :=
  if p.length = xPowers.length then
    .ok ((xPowers.enum).foldl (fun y ix => gadd y (gsmul ix.2 (p.getD ix.1 0))) (B 0))
  else .err

/-- `getQuotient(p, x, y, f)` from the kzg driver: divide `p + (-y)` by the
linear polynomial `-x + v` and fail with an error when the division rest is
not the zero polynomial. -/
def kzg.getQuotient (p : List ℤ) (x y f : ℤ) : GoRes (List ℤ) :=
  GoRes.bind (polynomial.Add p [-y] f) fun pm =>
  GoRes.bind (polynomial.Div pm [-x, 1] f) fun qr =>
  GoRes.bind (polynomial.Eq qr.2 [0]) fun b =>
  if b then .ok qr.1 else .err

/-- Exact integer convolution of two coefficient slices (the mathematical
product polynomial's `k`-th coefficient, before modular reduction). -/
def spec.conv (a b : List ℤ) (k : ℕ) : ℤ :=
  ∑ i ∈ Finset.range (k + 1), a.getD i 0 * b.getD (k - i) 0

/-- Exact integer value of a coefficient slice at a point (before modular
reduction). -/
def spec.sumEval (p : List ℤ) (x : ℤ) : ℤ :=
  ∑ i ∈ Finset.range p.length, p.getD i 0 * x ^ i

/-- The mathematical polynomial over `ℤ` carried by a coefficient slice (a
proof-layer bridge to Mathlib's polynomials, not part of the embedded code).
-/
noncomputable def spec.toPoly (p : List ℤ) : Polynomial ℤ :=
  ∑ i ∈ Finset.range p.length, Polynomial.monomial i (p.getD i 0)

/-- Exact Horner accumulation: the loop of `Polynomial.Evaluate` without the
modular reductions. -/
def spec.horner (x : ℤ) : ℤ → List ℤ → ℤ
  | y, [] => y
  | y, c :: t => spec.horner x ((y + c) * x) t

/-! ### Basic list and modular-arithmetic utilities -/

theorem spec.getD_set (l : List ℤ) (i j : ℕ) (a : ℤ) :
    (l.set i a).getD j 0 = if i = j ∧ j < l.length then a else l.getD j 0 := by
  simp only [List.getD_eq_getElem?_getD, List.getElem?_set]
  rcases eq_or_ne i j with rfl | hij
  · by_cases h : i < l.length
    · simp [h]
    · simp [h, List.getElem?_eq_none (le_of_not_lt h)]
  · simp [hij]

theorem spec.list_eq_map_range (l : List ℤ) :
    (List.range l.length).map (fun i => l.getD i 0) = l := by
  apply List.ext_getElem
  · simp
  · intro n h1 h2
    simp only [List.getElem_map, List.getElem_range]
    simp [List.getD_eq_getElem?_getD, List.getElem?_eq_getElem h2]

theorem spec.getD_eq_getElem (l : List ℤ) (i : ℕ) (h : i < l.length) :
    l.getD i 0 = l[i] := by
  simp [List.getD_eq_getElem?_getD, List.getElem?_eq_getElem h]

theorem spec.mem_of_getD_ne (l : List ℤ) (i : ℕ) (h : l.getD i 0 ≠ 0) :
    l.getD i 0 ∈ l := by
  by_cases hi : i < l.length
  · rw [spec.getD_eq_getElem l i hi]; exact List.getElem_mem hi
  · exact absurd (List.getD_eq_default l 0 (le_of_not_lt hi)) h

theorem spec.getD_zero_of_reduced {l : List ℤ} {n : ℤ}
    (hc : ∀ c ∈ l, 0 ≤ c ∧ c < n) (i : ℕ) : 0 ≤ l.getD i 0 ∧ l.getD i 0 < n ∨ l.getD i 0 = 0 := by
  by_cases h : l.getD i 0 = 0
  · exact Or.inr h
  · exact Or.inl (hc _ (spec.mem_of_getD_ne l i h))

theorem spec.sum_map_range (g : ℕ → ℤ) (a : ℕ) :
    ((List.range a).map g).sum = ∑ i ∈ Finset.range a, g i := by
  induction a with
  | zero => simp
  | succ a ih => rw [List.range_succ, List.map_append, List.sum_append,
      Finset.sum_range_succ, ih]; simp

theorem spec.emod_add_left (a b n : ℤ) : (a % n + b) % n = (a + b) % n := by
  conv_rhs => rw [Int.add_emod]
  rw [Int.add_emod (a % n), Int.emod_emod]

theorem spec.emod_add_right (a b n : ℤ) : (a + b % n) % n = (a + b) % n := by
  rw [add_comm a, spec.emod_add_left, add_comm]

theorem spec.emod_modEq (a n : ℤ) : a % n ≡ a [ZMOD n] := Int.emod_emod a n

theorem spec.modEq_zero_eq_zero {a n : ℤ} (h : a ≡ 0 [ZMOD n]) (h0 : 0 ≤ a)
    (h1 : a < n) : a = 0 := by
  have hdvd : n ∣ a := (Int.modEq_zero_iff_dvd).mp h
  rcases eq_or_ne a 0 with rfl | ha
  · rfl
  · exact absurd (Int.le_of_dvd (lt_of_le_of_ne h0 (Ne.symm ha)) hdvd) (not_le.mpr h1)

theorem spec.reduced_eq_of_modEq {a b n : ℤ} (hn : 0 < n) (hab : a ≡ b [ZMOD n])
    (ha : 0 ≤ a ∧ a < n) (hb : 0 ≤ b ∧ b < n) : a = b := by
  have h1 : a % n = b % n := hab
  rwa [Int.emod_eq_of_lt ha.1 ha.2, Int.emod_eq_of_lt hb.1 hb.2] at h1

theorem spec.emod_reduced {a n : ℤ} (hn : 0 < n) : 0 ≤ a % n ∧ a % n < n :=
  ⟨Int.emod_nonneg a (ne_of_gt hn), Int.emod_lt_of_pos a hn⟩

/-! ### `MultInverse` and `Div` over the field -/

theorem galois.MultInverse_ok {f x i : ℤ} (h : galois.MultInverse f x = some i) :
    x * i ≡ 1 [ZMOD f] := by
  unfold galois.MultInverse at h
  by_cases hg : Int.gcd x f = 1
  · rw [if_pos hg, Option.some.injEq] at h
    subst h
    have hb := Int.gcd_eq_gcd_ab x f
    rw [hg] at hb
    have h1 : x * (Int.gcdA x f % f) ≡ x * Int.gcdA x f [ZMOD f] :=
      Int.ModEq.mul Int.ModEq.rfl (spec.emod_modEq _ _)
    have h2 : x * Int.gcdA x f ≡ 1 [ZMOD f] := by
      have hx : x * Int.gcdA x f = 1 - f * Int.gcdB x f := by push_cast at hb; linarith
      rw [hx]
      simpa using (Int.ModEq.sub (Int.ModEq.refl 1)
        ((Int.modEq_zero_iff_dvd).mpr ⟨Int.gcdB x f, rfl⟩))
    exact h1.trans h2
  · rw [if_neg hg] at h; exact absurd h (by simp)

theorem galois.MultInverse_none {f x : ℤ} (h : Int.gcd x f ≠ 1) :
    galois.MultInverse f x = none := by
  simp [galois.MultInverse, h]

theorem galois.MultInverse_isSome {f x : ℤ} (h : Int.gcd x f = 1) :
    galois.MultInverse f x = some (Int.gcdA x f % f) := by
  simp [galois.MultInverse, h]

theorem galois.Div_ok {f x y : ℤ} (h : Int.gcd y f = 1) :
    galois.Div f x y = .ok ((x * (Int.gcdA y f % f)) % f) := by
  simp [galois.Div, galois.MultInverse_isSome h]

theorem galois.Div_crash {f x y : ℤ} (h : Int.gcd y f ≠ 1) :
    galois.Div f x y = .crash := by
  simp [galois.Div, galois.MultInverse_none h]

theorem spec.gcd_one_of_prime {n c : ℤ} (hn : Prime n) (hc : ¬ n ∣ c) :
    Int.gcd c n = 1 := by
  have hp : Nat.Prime n.natAbs := Int.prime_iff_natAbs_prime.mp hn
  have h2 : ¬ n.natAbs ∣ c.natAbs := fun h => hc (Int.natAbs_dvd_natAbs.mp h)
  exact Nat.coprime_comm.mp ((Nat.Prime.coprime_iff_not_dvd hp).mpr h2)

/-! ### Properties of `Polynomial.Degree` -/

theorem polynomial.findDeg_le (p : List ℤ) (d : ℕ) : polynomial.findDeg p d ≤ d := by
  induction d with
  | zero => simp [polynomial.findDeg]
  | succ d ih =>
    unfold polynomial.findDeg
    by_cases h : p.getD (d + 1) 0 ≠ 0
    · rw [if_pos h]
    · rw [if_neg h]
      exact le_trans ih (Nat.le_succ d)

theorem polynomial.findDeg_getD (p : List ℤ) (d : ℕ) :
    ∀ k, polynomial.findDeg p d < k → k ≤ d → p.getD k 0 = 0 := by
  induction d with
  | zero => intro k h1 h2; omega
  | succ d ih =>
    intro k h1 h2
    unfold polynomial.findDeg at h1
    by_cases h : p.getD (d + 1) 0 ≠ 0
    · rw [if_pos h] at h1; omega
    · rw [if_neg h] at h1
      rcases Nat.lt_or_ge k (d + 1) with hk | hk
      · exact ih k h1 (by omega)
      · have : k = d + 1 := by omega
        rw [this]
        exact not_ne_iff.mp h

theorem polynomial.findDeg_nonzero (p : List ℤ) (d : ℕ)
    (h : polynomial.findDeg p d ≠ 0) : p.getD (polynomial.findDeg p d) 0 ≠ 0 := by
  induction d with
  | zero => simp [polynomial.findDeg] at h
  | succ d ih =>
    unfold polynomial.findDeg at h ⊢
    by_cases hc : p.getD (d + 1) 0 ≠ 0
    · rw [if_pos hc]; exact hc
    · rw [if_neg hc] at h ⊢
      exact ih h

theorem polynomial.Degree_le (p : List ℤ) : polynomial.Degree p ≤ p.length - 1 :=
  polynomial.findDeg_le p (p.length - 1)

theorem polynomial.Degree_lt_length {p : List ℤ} (h : p ≠ []) :
    polynomial.Degree p < p.length := by
  have h1 := polynomial.Degree_le p
  have h2 : 0 < p.length := List.length_pos.mpr h
  omega

theorem polynomial.getD_zero_of_Degree_lt {p : List ℤ} {k : ℕ}
    (h : polynomial.Degree p < k) : p.getD k 0 = 0 := by
  rcases Nat.lt_or_ge k p.length with hk | hk
  · exact polynomial.findDeg_getD p (p.length - 1) k h (by omega)
  · exact List.getD_eq_default p 0 hk

theorem polynomial.getD_Degree_ne {p : List ℤ} (h : polynomial.Degree p ≠ 0) :
    p.getD (polynomial.Degree p) 0 ≠ 0 :=
  polynomial.findDeg_nonzero p (p.length - 1) h

theorem polynomial.le_Degree_of_getD_ne {p : List ℤ} {k : ℕ} (h1 : 1 ≤ k)
    (h2 : p.getD k 0 ≠ 0) : k ≤ polynomial.Degree p := by
  by_contra hlt
  exact h2 (polynomial.getD_zero_of_Degree_lt (by omega))

theorem polynomial.Degree_eq_of {p : List ℤ} {d : ℕ} (h1 : 1 ≤ d)
    (h2 : p.getD d 0 ≠ 0) (h3 : ∀ k, d < k → p.getD k 0 = 0) :
    polynomial.Degree p = d := by
  have hle := polynomial.le_Degree_of_getD_ne h1 h2
  rcases Nat.lt_or_ge d (polynomial.Degree p) with hlt | hge
  · exact absurd (h3 _ hlt) (polynomial.getD_Degree_ne (by omega))
  · omega

theorem polynomial.Degree_lt_of {p : List ℤ} {e : ℕ} (h1 : 1 ≤ e)
    (h2 : ∀ k, e ≤ k → p.getD k 0 = 0) : polynomial.Degree p < e := by
  by_contra hge
  exact polynomial.getD_Degree_ne (by omega) (h2 _ (by omega))

theorem polynomial.Degree_eq_zero_of {p : List ℤ}
    (h : ∀ k, 1 ≤ k → p.getD k 0 = 0) : polynomial.Degree p = 0 := by
  have := polynomial.Degree_lt_of (le_refl 1) (fun k hk => h k hk)
  omega

/-! ### Coefficient-level description of `Polynomial.Add` -/

theorem spec.getD_map_range (g : ℕ → ℤ) (n k : ℕ) :
    ((List.range n).map g).getD k 0 = if k < n then g k else 0 := by
  by_cases h : k < n
  · rw [if_pos h]
    have hk : k < ((List.range n).map g).length := by simpa using h
    rw [spec.getD_eq_getElem _ _ hk]
    simp
  · rw [if_neg h]
    exact List.getD_eq_default _ 0 (by simpa using le_of_not_lt h)

theorem spec.reduced_of_getD {l : List ℤ} {n : ℤ}
    (h : ∀ k, k < l.length → 0 ≤ l.getD k 0 ∧ l.getD k 0 < n) :
    ∀ c ∈ l, 0 ≤ c ∧ c < n := by
  intro c hc
  rcases List.mem_iff_getElem.mp hc with ⟨i, hi, rfl⟩
  have := h i hi
  rwa [spec.getD_eq_getElem _ _ hi] at this

theorem polynomial.Add_spec (p x : List ℤ) (f : ℤ)
    (hp : p.length ≤ max (polynomial.Degree p) (polynomial.Degree x) + 1)
    (hx : x.length ≤ max (polynomial.Degree p) (polynomial.Degree x) + 1) :
    ∃ s, polynomial.Add p x f = .ok s
      ∧ s.length = max (polynomial.Degree p) (polynomial.Degree x) + 1
      ∧ (∀ k, s.getD k 0 = if k < max (polynomial.Degree p) (polynomial.Degree x) + 1
          then (p.getD k 0 + x.getD k 0) % f else 0)
      ∧ (∀ k, s.getD k 0 ≡ p.getD k 0 + x.getD k 0 [ZMOD f]) := by
  refine ⟨_, by rw [polynomial.Add, if_pos ⟨hp, hx⟩], by simp, ?_, ?_⟩
  · intro k
    rw [spec.getD_map_range]
    by_cases hk : k < max (polynomial.Degree p) (polynomial.Degree x) + 1
    · rw [if_pos hk, if_pos hk]
      by_cases h1 : k < p.length <;> by_cases h2 : k < x.length
      · rw [if_pos h1, if_pos h2]
        simp only [galois.Add, zero_add]
        rw [spec.emod_add_left]
      · rw [if_pos h1, if_neg h2, List.getD_eq_default x 0 (le_of_not_lt h2)]
        simp [galois.Add]
      · rw [if_neg h1, if_pos h2, List.getD_eq_default p 0 (le_of_not_lt h1)]
        simp [galois.Add]
      · rw [if_neg h1, if_neg h2, List.getD_eq_default x 0 (le_of_not_lt h2),
          List.getD_eq_default p 0 (le_of_not_lt h1)]
        simp
    · rw [if_neg hk, if_neg hk]
  · intro k
    rw [spec.getD_map_range]
    by_cases hk : k < max (polynomial.Degree p) (polynomial.Degree x) + 1
    · rw [if_pos hk]
      by_cases h1 : k < p.length <;> by_cases h2 : k < x.length
      · rw [if_pos h1, if_pos h2]
        simp only [galois.Add, zero_add]
        rw [spec.emod_add_left]
        exact spec.emod_modEq _ _
      · rw [if_pos h1, if_neg h2, List.getD_eq_default x 0 (le_of_not_lt h2)]
        simp only [galois.Add, zero_add, add_zero]
        exact spec.emod_modEq _ _
      · rw [if_neg h1, if_pos h2, List.getD_eq_default p 0 (le_of_not_lt h1)]
        simp only [galois.Add, zero_add]
        exact spec.emod_modEq _ _
      · rw [if_neg h1, if_neg h2, List.getD_eq_default x 0 (le_of_not_lt h2),
          List.getD_eq_default p 0 (le_of_not_lt h1)]
        simp
    · rw [if_neg hk]
      have hdp : polynomial.Degree p < k := by omega
      have hdx : polynomial.Degree x < k := by omega
      rw [polynomial.getD_zero_of_Degree_lt hdp, polynomial.getD_zero_of_Degree_lt hdx]
      simp

/-! ### Coefficient-level description of `Polynomial.Mul` -/

theorem spec.sum_flatMap {α : Type} (h : α → List ℤ) (l : List α) :
    (l.flatMap h).sum = (l.map fun a => (h a).sum).sum := by
  induction l with
  | nil => simp
  | cons a t ih => simp [ih]

theorem polynomial.mulFold_getD (p m : List ℤ) (f : ℤ) :
    ∀ (L : List (ℕ × ℕ)) (prod : List ℤ) (g : ℕ → ℤ),
    (∀ ij ∈ L, ij.1 + ij.2 < prod.length) →
    (∀ k, prod.getD k 0 = g k % f) →
    ∀ k, (L.foldl (polynomial.mulStep p m f) prod).getD k 0
      = (g k + (L.map fun ij =>
          if ij.1 + ij.2 = k then p.getD ij.1 0 * m.getD ij.2 0 else 0).sum) % f := by
  intro L
  induction L with
  | nil =>
    intro prod g _ hg k
    simpa using hg k
  | cons ij L ih =>
    intro prod g hL hg k
    have hlen : ij.1 + ij.2 < prod.length := hL ij (by simp)
    have hstep : ∀ k2, (polynomial.mulStep p m f prod ij).getD k2 0
        = (if ij.1 + ij.2 = k2 then g k2 + p.getD ij.1 0 * m.getD ij.2 0 else g k2) % f := by
      intro k2
      unfold polynomial.mulStep
      rw [spec.getD_set]
      by_cases he : ij.1 + ij.2 = k2
      · rw [if_pos ⟨he, he ▸ hlen⟩, if_pos he]
        rw [hg, galois.Add, galois.Mul, spec.emod_add_left, spec.emod_add_right, he]
      · rw [if_neg (by tauto), if_neg he]
        exact hg k2
    have := ih (polynomial.mulStep p m f prod ij)
      (fun k2 => if ij.1 + ij.2 = k2 then g k2 + p.getD ij.1 0 * m.getD ij.2 0 else g k2)
      (by simpa [polynomial.mulStep] using fun a ha => hL a (List.mem_cons_of_mem ij ha))
      hstep k
    rw [List.foldl_cons, this, List.map_cons, List.sum_cons]
    by_cases he : ij.1 + ij.2 = k
    · rw [if_pos he, if_pos he, add_assoc]
    · rw [if_neg he, if_neg he, zero_add]

theorem polynomial.mulPairs_sum (p m : List ℤ) (k : ℕ) :
    ((polynomial.mulPairs p.length m.length).map fun ij =>
        if ij.1 + ij.2 = k then p.getD ij.1 0 * m.getD ij.2 0 else 0).sum
      = spec.conv p m k := by
  unfold polynomial.mulPairs
  rw [List.map_flatMap, spec.sum_flatMap]
  have hmap : ∀ i : ℕ, (((List.range m.length).map fun j => (i, j)).map fun ij =>
      if ij.1 + ij.2 = k then p.getD ij.1 0 * m.getD ij.2 0 else 0).sum
      = if i ≤ k then p.getD i 0 * m.getD (k - i) 0 else 0 := by
    intro i
    rw [List.map_map]
    have : ((List.range m.length).map fun j =>
        if i + j = k then p.getD i 0 * m.getD j 0 else 0).sum
        = ∑ j ∈ Finset.range m.length, if i + j = k then p.getD i 0 * m.getD j 0 else 0 :=
      spec.sum_map_range _ _
    rw [show ((List.range m.length).map
        ((fun ij : ℕ × ℕ => if ij.1 + ij.2 = k then p.getD ij.1 0 * m.getD ij.2 0 else 0) ∘
          fun j => (i, j))) = (List.range m.length).map fun j =>
            if i + j = k then p.getD i 0 * m.getD j 0 else 0 from rfl, this]
    by_cases hik : i ≤ k
    · rw [if_pos hik]
      calc (∑ j ∈ Finset.range m.length, if i + j = k then p.getD i 0 * m.getD j 0 else 0)
          = ∑ j ∈ Finset.range m.length, if j = k - i then p.getD i 0 * m.getD j 0 else 0 := by
            apply Finset.sum_congr rfl
            intro j _
            by_cases hj : i + j = k
            · rw [if_pos hj, if_pos (by omega)]
            · rw [if_neg hj, if_neg (by omega)]
        _ = if k - i ∈ Finset.range m.length then p.getD i 0 * m.getD (k - i) 0 else 0 :=
            Finset.sum_ite_eq' _ _ _
        _ = p.getD i 0 * m.getD (k - i) 0 := by
            by_cases hin : k - i ∈ Finset.range m.length
            · rw [if_pos hin]
            · rw [if_neg hin, List.getD_eq_default m 0
                (by simpa using le_of_not_lt (by simpa using hin)), mul_zero]
    · rw [if_neg hik]
      apply Finset.sum_eq_zero
      intro j _
      rw [if_neg (by omega)]
  have hrw : ((List.range p.length).map fun i => (((List.range m.length).map fun j =>
        (i, j)).map fun ij =>
          if ij.1 + ij.2 = k then p.getD ij.1 0 * m.getD ij.2 0 else 0).sum)
      = (List.range p.length).map fun i =>
          if i ≤ k then p.getD i 0 * m.getD (k - i) 0 else 0 :=
    List.map_congr_left fun i _ => hmap i
  rw [hrw, spec.sum_map_range]
  calc (∑ i ∈ Finset.range p.length, if i ≤ k then p.getD i 0 * m.getD (k - i) 0 else 0)
      = ∑ i ∈ Finset.range (max p.length (k + 1)),
          if i ≤ k then p.getD i 0 * m.getD (k - i) 0 else 0 := by
        apply Finset.sum_subset
        · exact Finset.range_subset.mpr (le_max_left _ _)
        · intro i _ hni
          have : p.length ≤ i := by simpa using hni
          rw [List.getD_eq_default p 0 this]
          simp
    _ = ∑ i ∈ Finset.range (k + 1), if i ≤ k then p.getD i 0 * m.getD (k - i) 0 else 0 := by
        symm
        apply Finset.sum_subset
        · exact Finset.range_subset.mpr (le_max_right _ _)
        · intro i _ hni
          have : k + 1 ≤ i := by simpa using hni
          rw [if_neg (by omega)]
    _ = spec.conv p m k := by
        apply Finset.sum_congr rfl
        intro i hi
        rw [if_pos (by simpa using Nat.lt_succ_iff.mp (Finset.mem_range.mp hi))]

theorem spec.conv_comm (p m : List ℤ) (k : ℕ) : spec.conv p m k = spec.conv m p k := by
  unfold spec.conv
  rw [← Finset.sum_range_reflect (fun j => m.getD j 0 * p.getD (k - j) 0) (k + 1)]
  apply Finset.sum_congr rfl
  intro i hi
  have hik : i ≤ k := Nat.lt_succ_iff.mp (Finset.mem_range.mp hi)
  have h1 : k + 1 - 1 - i = k - i := by omega
  have h2 : k - (k - i) = i := by omega
  rw [h1, h2, mul_comm]

theorem spec.conv_zero_of_big {p m : List ℤ} {k : ℕ}
    (h : polynomial.Degree p + polynomial.Degree m < k) : spec.conv p m k = 0 := by
  unfold spec.conv
  apply Finset.sum_eq_zero
  intro i _
  by_cases hp : polynomial.Degree p < i
  · rw [polynomial.getD_zero_of_Degree_lt hp, zero_mul]
  · rw [polynomial.getD_zero_of_Degree_lt (p := m) (by omega), mul_zero]

theorem polynomial.mulFold_length (p m : List ℤ) (f : ℤ) (L : List (ℕ × ℕ)) :
    ∀ prod : List ℤ, (L.foldl (polynomial.mulStep p m f) prod).length = prod.length := by
  induction L with
  | nil => intro prod; rfl
  | cons a t ih =>
    intro prod
    rw [List.foldl_cons, ih]
    simp [polynomial.mulStep]

theorem polynomial.Mul_spec (p m : List ℤ) (f : ℤ)
    (hg : ∀ ij ∈ polynomial.mulPairs p.length m.length,
      ij.1 + ij.2 < polynomial.Degree p + polynomial.Degree m + 1) :
    ∃ r, polynomial.Mul p m f = .ok r
      ∧ r.length = polynomial.Degree p + polynomial.Degree m + 1
      ∧ (∀ k, r.getD k 0 = spec.conv p m k % f) := by
  refine ⟨_, by rw [polynomial.Mul, if_pos hg],
    by rw [polynomial.mulFold_length]; simp, ?_⟩
  intro k
  have hfold := polynomial.mulFold_getD p m f (polynomial.mulPairs p.length m.length)
    (List.replicate (polynomial.Degree p + polynomial.Degree m + 1) 0) (fun _ => 0)
    (by rw [List.length_replicate]; exact hg)
    (fun k2 => by
      rw [List.getD_eq_getElem?_getD, List.getElem?_replicate]
      by_cases h : k2 < polynomial.Degree p + polynomial.Degree m + 1 <;> simp [h]) k
  rw [hfold, polynomial.mulPairs_sum, zero_add]

/-! ### Horner evaluation and the bridge to Mathlib polynomials -/

theorem spec.modEq_emod_eq {a b n : ℤ} (h : a ≡ b [ZMOD n]) : a % n = b % n := h

theorem spec.sum_modEq {s : Finset ℕ} {g h : ℕ → ℤ} {n : ℤ}
    (hs : ∀ i ∈ s, g i ≡ h i [ZMOD n]) : ∑ i ∈ s, g i ≡ ∑ i ∈ s, h i [ZMOD n] := by
  induction s using Finset.induction with
  | empty => simp
  | insert hx ih =>
    rw [Finset.sum_insert hx, Finset.sum_insert hx]
    exact Int.ModEq.add (hs _ (Finset.mem_insert_self _ _))
      (ih fun i hi => hs i (Finset.mem_insert_of_mem hi))

theorem spec.horner_modEq (f x : ℤ) :
    ∀ (l : List ℤ) (y1 y2 : ℤ), y1 ≡ y2 [ZMOD f] →
      l.foldl (fun y c => galois.Mul f (galois.Add f y c) x) y1 ≡ spec.horner x y2 l [ZMOD f] := by
  intro l
  induction l with
  | nil => intro y1 y2 h; exact h
  | cons c t ih =>
    intro y1 y2 h
    rw [List.foldl_cons]
    show (t.foldl (fun y c => galois.Mul f (galois.Add f y c) x)
      (galois.Mul f (galois.Add f y1 c) x)) ≡ spec.horner x ((y2 + c) * x) t [ZMOD f]
    apply ih
    calc galois.Mul f (galois.Add f y1 c) x
        ≡ (y1 + c) * x [ZMOD f] := by
          unfold galois.Mul galois.Add
          exact (spec.emod_modEq _ _).trans
            (Int.ModEq.mul (spec.emod_modEq _ _) Int.ModEq.rfl)
      _ ≡ (y2 + c) * x [ZMOD f] := Int.ModEq.mul (Int.ModEq.add h Int.ModEq.rfl) Int.ModEq.rfl

theorem spec.horner_shift (x : ℤ) : ∀ (l : List ℤ) (y : ℤ),
    spec.horner x y l = y * x ^ l.length + spec.horner x 0 l := by
  intro l
  induction l with
  | nil => intro y; simp [spec.horner]
  | cons c t ih =>
    intro y
    show spec.horner x ((y + c) * x) t = y * x ^ (t.length + 1) + spec.horner x ((0 + c) * x) t
    rw [ih ((y + c) * x), ih ((0 + c) * x)]
    ring

theorem spec.horner_reverse_sum (x f : ℤ) (rest : List ℤ) :
    spec.horner x 0 rest.reverse
      = ∑ i ∈ Finset.range rest.length, rest.getD i 0 * x ^ (i + 1) := by
  induction rest using List.reverseRecOn with
  | nil => simp [spec.horner]
  | append_singleton r a ih =>
    rw [List.reverse_append]
    show spec.horner x 0 (a :: r.reverse) = _
    have h1 : spec.horner x 0 (a :: r.reverse) = spec.horner x ((0 + a) * x) r.reverse := rfl
    rw [h1, spec.horner_shift, ih]
    rw [List.length_append, List.length_singleton, Finset.sum_range_succ]
    have h2 : ∀ i ∈ Finset.range r.length,
        (r ++ [a]).getD i 0 * x ^ (i + 1) = r.getD i 0 * x ^ (i + 1) := by
      intro i hi
      rw [List.getD_append r [a] 0 i (Finset.mem_range.mp hi)]
    rw [Finset.sum_congr rfl h2,
      List.getD_append_right r [a] 0 r.length (le_refl _), Nat.sub_self]
    simp [List.length_reverse]
    ring

theorem polynomial.Evaluate_ok (p : List ℤ) (x f : ℤ) (h : p ≠ []) :
    polynomial.Evaluate p x f = .ok (spec.sumEval p x % f) := by
  obtain ⟨c0, rest, rfl⟩ : ∃ c0 rest, p = c0 :: rest := by
    cases p with
    | nil => exact absurd rfl h
    | cons c0 rest => exact ⟨c0, rest, rfl⟩
  show GoRes.ok (galois.Add f
      (rest.reverse.foldl (fun y c => galois.Mul f (galois.Add f y c) x) 0) c0)
    = .ok (spec.sumEval (c0 :: rest) x % f)
  congr 1
  have hfold : (rest.reverse.foldl (fun y c => galois.Mul f (galois.Add f y c) x) 0)
      ≡ spec.horner x 0 rest.reverse [ZMOD f] :=
    spec.horner_modEq f x rest.reverse 0 0 Int.ModEq.rfl
  have hsum : spec.sumEval (c0 :: rest) x
      = c0 + ∑ i ∈ Finset.range rest.length, rest.getD i 0 * x ^ (i + 1) := by
    unfold spec.sumEval
    rw [List.length_cons, Finset.sum_range_succ']
    simp only [List.getD_cons_succ, List.getD_cons_zero, pow_zero, mul_one]
    ring
  unfold galois.Add
  apply spec.modEq_emod_eq
  calc rest.reverse.foldl (fun y c => galois.Mul f (galois.Add f y c) x) 0 + c0
      ≡ spec.horner x 0 rest.reverse + c0 [ZMOD f] := Int.ModEq.add hfold Int.ModEq.rfl
    _ = spec.sumEval (c0 :: rest) x := by
        rw [spec.horner_reverse_sum x f rest, hsum]; ring

theorem spec.sumEval_extend (p : List ℤ) (x : ℤ) {K : ℕ} (hK : p.length ≤ K) :
    ∑ k ∈ Finset.range K, p.getD k 0 * x ^ k = spec.sumEval p x := by
  unfold spec.sumEval
  symm
  apply Finset.sum_subset (Finset.range_subset.mpr hK)
  intro i _ hni
  rw [List.getD_eq_default p 0 (by simpa using hni), zero_mul]

theorem spec.toPoly_coeff (p : List ℤ) (k : ℕ) : (spec.toPoly p).coeff k = p.getD k 0 := by
  unfold spec.toPoly
  rw [Polynomial.finset_sum_coeff]
  have : ∀ i ∈ Finset.range p.length,
      (Polynomial.monomial i (p.getD i 0)).coeff k
        = if i = k then p.getD i 0 else 0 := fun i _ => Polynomial.coeff_monomial
  rw [Finset.sum_congr rfl this, Finset.sum_ite_eq' (Finset.range p.length) k
    (fun i => p.getD i 0)]
  by_cases hk : k ∈ Finset.range p.length
  · rw [if_pos hk]
  · rw [if_neg hk, List.getD_eq_default p 0 (by simpa using hk)]

theorem spec.toPoly_eval (p : List ℤ) (x : ℤ) : (spec.toPoly p).eval x = spec.sumEval p x := by
  unfold spec.toPoly spec.sumEval
  rw [Polynomial.eval_finset_sum]
  apply Finset.sum_congr rfl
  intro i _
  rw [Polynomial.eval_monomial]

theorem spec.toPoly_natDegree_le (p : List ℤ) :
    (spec.toPoly p).natDegree ≤ polynomial.Degree p :=
  Polynomial.natDegree_le_iff_coeff_eq_zero.mpr fun N hN => by
    rw [spec.toPoly_coeff]; exact polynomial.getD_zero_of_Degree_lt hN

theorem spec.conv_eval (p m : List ℤ) (x : ℤ) (K : ℕ)
    (hK : polynomial.Degree p + polynomial.Degree m < K) :
    ∑ k ∈ Finset.range K, spec.conv p m k * x ^ k = spec.sumEval p x * spec.sumEval m x := by
  have h1 : (spec.toPoly p * spec.toPoly m).natDegree < K :=
    lt_of_le_of_lt (le_trans Polynomial.natDegree_mul_le
      (add_le_add (spec.toPoly_natDegree_le p) (spec.toPoly_natDegree_le m))) hK
  have h2 := Polynomial.eval_eq_sum_range' h1 x
  rw [Polynomial.eval_mul, spec.toPoly_eval, spec.toPoly_eval] at h2
  rw [h2]
  apply Finset.sum_congr rfl
  intro k _
  congr 1
  rw [Polynomial.coeff_mul, Finset.Nat.sum_antidiagonal_eq_sum_range_succ_mk]
  unfold spec.conv
  apply Finset.sum_congr rfl
  intro i _
  rw [spec.toPoly_coeff, spec.toPoly_coeff]

/-! ### Helpers about canonical storage, reduced coefficients and primes -/

theorem spec.not_dvd_of_reduced {n a : ℤ} (h0 : 0 ≤ a) (h1 : a < n) (ha : a ≠ 0) :
    ¬ n ∣ a := fun hdvd =>
  absurd (Int.le_of_dvd (lt_of_le_of_ne h0 (Ne.symm ha)) hdvd) (not_le.mpr h1)

theorem spec.emod_ne_zero {n a : ℤ} (ha : ¬ n ∣ a) : a % n ≠ 0 := fun h =>
  ha (Int.dvd_of_emod_eq_zero h)

theorem spec.emod_mul_left (a b n : ℤ) : (a % n * b) % n = (a * b) % n := by
  rw [Int.mul_emod (a % n) b n, Int.emod_emod, ← Int.mul_emod]

theorem spec.emod_mul_right (a b n : ℤ) : (a * (b % n)) % n = (a * b) % n := by
  rw [mul_comm a, spec.emod_mul_left, mul_comm]

theorem spec.getD_zero_of_all {d : List ℤ} (hd : ∀ c ∈ d, c = 0) (k : ℕ) :
    d.getD k 0 = 0 := by
  by_cases hk : k < d.length
  · rw [spec.getD_eq_getElem d k hk]
    exact hd _ (List.getElem_mem hk)
  · exact List.getD_eq_default d 0 (le_of_not_lt hk)

theorem polynomial.ne_nil_of_canonical {p : List ℤ}
    (hp : p.length = polynomial.Degree p + 1) : p ≠ [] := by
  intro h
  rw [h] at hp
  simp at hp

theorem polynomial.mul_guard_of_canonical {p q : List ℤ}
    (hp : p.length = polynomial.Degree p + 1) (hq : q.length = polynomial.Degree q + 1) :
    ∀ ij ∈ polynomial.mulPairs p.length q.length,
      ij.1 + ij.2 < polynomial.Degree p + polynomial.Degree q + 1 := by
  intro ij hij
  unfold polynomial.mulPairs at hij
  simp only [List.mem_flatMap, List.mem_map, List.mem_range] at hij
  obtain ⟨i, hi, j, hj, rfl⟩ := hij
  omega

theorem polynomial.Clone_ok_of_canonical {p : List ℤ}
    (hp : p.length = polynomial.Degree p + 1) : polynomial.Clone p = .ok p := by
  unfold polynomial.Clone
  rw [if_pos (le_of_eq hp), ← hp, spec.list_eq_map_range]

/-- The leading coefficient of a reduced, canonically stored, nonzero
polynomial is not divisible by the prime order. -/
theorem polynomial.leading_not_dvd {n : ℤ} {p : List ℤ}
    (hpc : ∀ c ∈ p, 0 ≤ c ∧ c < n)
    (hp0 : p.getD (polynomial.Degree p) 0 ≠ 0) :
    ¬ n ∣ p.getD (polynomial.Degree p) 0 := by
  have hm := hpc _ (spec.mem_of_getD_ne p (polynomial.Degree p) hp0)
  exact spec.not_dvd_of_reduced hm.1 hm.2 hp0

/-- Claim C7: over a prime-order field, for reduced, canonically stored
polynomials `p`, `q`, neither of which is the zero polynomial, the degree of
`Mul(p, q, f)` is `Degree p + Degree q`.  (Packed storage and reduced
coefficients are how nonzero polynomials over the field are represented;
`p.getD (Degree p) 0 ≠ 0` states that the polynomial is not the zero
polynomial.) -/
theorem polynomial.Mul_degree_add (n : ℤ) (hpr : Prime n) (p q : List ℤ)
    (hp : p.length = polynomial.Degree p + 1) (hq : q.length = polynomial.Degree q + 1)
    (hpc : ∀ c ∈ p, 0 ≤ c ∧ c < n) (hqc : ∀ c ∈ q, 0 ≤ c ∧ c < n)
    (hp0 : p.getD (polynomial.Degree p) 0 ≠ 0)
    (hq0 : q.getD (polynomial.Degree q) 0 ≠ 0) :
    ∃ r, polynomial.Mul p q n = .ok r
      ∧ polynomial.Degree r = polynomial.Degree p + polynomial.Degree q := by
  obtain ⟨r, hr, hrlen, hrco⟩ :=
    polynomial.Mul_spec p q n (polynomial.mul_guard_of_canonical hp hq)
  refine ⟨r, hr, ?_⟩
  have hconvtop : spec.conv p q (polynomial.Degree p + polynomial.Degree q)
      = p.getD (polynomial.Degree p) 0 * q.getD (polynomial.Degree q) 0 := by
    unfold spec.conv
    rw [show p.getD (polynomial.Degree p) 0 * q.getD (polynomial.Degree q) 0
        = p.getD (polynomial.Degree p) 0 *
          q.getD (polynomial.Degree p + polynomial.Degree q - polynomial.Degree p) 0 by
      congr 2
      omega]
    apply Finset.sum_eq_single (polynomial.Degree p)
    · intro i _ hne
      rcases Nat.lt_or_ge (polynomial.Degree p) i with hgt | hle
      · rw [polynomial.getD_zero_of_Degree_lt hgt, zero_mul]
      · rw [polynomial.getD_zero_of_Degree_lt (p := q) (by omega), mul_zero]
    · intro hmem
      exact absurd (Finset.mem_range.mpr (by omega)) hmem
  have htop : r.getD (polynomial.Degree p + polynomial.Degree q) 0 ≠ 0 := by
    rw [hrco, hconvtop]
    refine spec.emod_ne_zero fun hdvd => ?_
    rcases (Prime.dvd_mul hpr).mp hdvd with h | h
    · exact polynomial.leading_not_dvd hpc hp0 h
    · exact polynomial.leading_not_dvd hqc hq0 h
  rcases Nat.eq_zero_or_pos (polynomial.Degree p + polynomial.Degree q) with hz | hpos
  · rw [hz]
    apply polynomial.Degree_eq_zero_of
    intro k hk
    rw [hrco, spec.conv_zero_of_big (by omega), Int.zero_emod]
  · apply polynomial.Degree_eq_of hpos htop
    intro k hk
    rw [hrco, spec.conv_zero_of_big (by omega), Int.zero_emod]

/-- Witness for C7 at `n = 2`, `p = q = v + 1` (the first concrete scenario of
the spec: `mul([1,1,1],[1,1])` over `GF(2)` is built from such factors). -/
theorem polynomial.Mul_degree_add_witness :
    ∃ r, polynomial.Mul [1, 1] [1, 1] 2 = .ok r ∧ polynomial.Degree r = 1 + 1 :=
  polynomial.Mul_degree_add 2 Int.prime_two [1, 1] [1, 1]
    (by decide) (by decide) (by decide) (by decide) (by decide) (by decide)

/-- Claim C8: evaluation is a ring homomorphism — for canonically stored
polynomials `p`, `q`, `Evaluate (Add p q f) x f = f.Add (Evaluate p x f)
(Evaluate q x f)` and `Evaluate (Mul p q f) x f = f.Mul (Evaluate p x f)
(Evaluate q x f)`. -/
theorem polynomial.Evaluate_hom (f : ℤ) (p q : List ℤ)
    (hp : p.length = polynomial.Degree p + 1) (hq : q.length = polynomial.Degree q + 1)
    (x : ℤ) :
    ∃ s m yp yq, polynomial.Add p q f = .ok s ∧ polynomial.Mul p q f = .ok m
      ∧ polynomial.Evaluate p x f = .ok yp ∧ polynomial.Evaluate q x f = .ok yq
      ∧ polynomial.Evaluate s x f = .ok (galois.Add f yp yq)
      ∧ polynomial.Evaluate m x f = .ok (galois.Mul f yp yq) := by
  obtain ⟨s, hs, hslen, _, hsco⟩ := polynomial.Add_spec p q f (by omega) (by omega)
  obtain ⟨m, hm, hmlen, hmco⟩ :=
    polynomial.Mul_spec p q f (polynomial.mul_guard_of_canonical hp hq)
  have hsne : s ≠ [] := by rw [← List.length_pos, hslen]; omega
  have hmne : m ≠ [] := by rw [← List.length_pos, hmlen]; omega
  refine ⟨s, m, spec.sumEval p x % f, spec.sumEval q x % f, hs, hm,
    polynomial.Evaluate_ok p x f (polynomial.ne_nil_of_canonical hp),
    polynomial.Evaluate_ok q x f (polynomial.ne_nil_of_canonical hq), ?_, ?_⟩
  · rw [polynomial.Evaluate_ok s x f hsne]
    congr 1
    unfold galois.Add
    rw [spec.emod_add_left, spec.emod_add_right]
    apply spec.modEq_emod_eq
    unfold spec.sumEval
    rw [hslen]
    calc ∑ k ∈ Finset.range (max (polynomial.Degree p) (polynomial.Degree q) + 1),
          s.getD k 0 * x ^ k
        ≡ ∑ k ∈ Finset.range (max (polynomial.Degree p) (polynomial.Degree q) + 1),
            (p.getD k 0 + q.getD k 0) * x ^ k [ZMOD f] :=
          spec.sum_modEq fun k _ => Int.ModEq.mul (hsco k) Int.ModEq.rfl
      _ = (∑ k ∈ Finset.range (max (polynomial.Degree p) (polynomial.Degree q) + 1),
            p.getD k 0 * x ^ k)
          + ∑ k ∈ Finset.range (max (polynomial.Degree p) (polynomial.Degree q) + 1),
            q.getD k 0 * x ^ k := by
          rw [← Finset.sum_add_distrib]
          apply Finset.sum_congr rfl
          intro k _
          ring
      _ = spec.sumEval p x + spec.sumEval q x := by
          rw [spec.sumEval_extend p x (by omega), spec.sumEval_extend q x (by omega)]
  · rw [polynomial.Evaluate_ok m x f hmne]
    congr 1
    unfold galois.Mul
    rw [spec.emod_mul_left, spec.emod_mul_right]
    apply spec.modEq_emod_eq
    unfold spec.sumEval
    rw [hmlen]
    calc ∑ k ∈ Finset.range (polynomial.Degree p + polynomial.Degree q + 1),
          m.getD k 0 * x ^ k
        ≡ ∑ k ∈ Finset.range (polynomial.Degree p + polynomial.Degree q + 1),
            spec.conv p q k * x ^ k [ZMOD f] :=
          spec.sum_modEq fun k _ => Int.ModEq.mul
            (by rw [hmco k]; exact spec.emod_modEq _ _) Int.ModEq.rfl
      _ = spec.sumEval p x * spec.sumEval q x :=
          spec.conv_eval p q x _ (by omega)

/-- Witness for C8 at `f = 100`, `p = 2v² + v`, `q = v + 1` (from the spec's
concrete scenarios over modulus 100). -/
theorem polynomial.Evaluate_hom_witness :
    ∃ s m yp yq, polynomial.Add [0, 1, 2] [1, 1] 100 = .ok s
      ∧ polynomial.Mul [0, 1, 2] [1, 1] 100 = .ok m
      ∧ polynomial.Evaluate [0, 1, 2] 1 100 = .ok yp
      ∧ polynomial.Evaluate [1, 1] 1 100 = .ok yq
      ∧ polynomial.Evaluate s 1 100 = .ok (galois.Add 100 yp yq)
      ∧ polynomial.Evaluate m 1 100 = .ok (galois.Mul 100 yp yq) :=
  polynomial.Evaluate_hom 100 [0, 1, 2] [1, 1] (by decide) (by decide) 1

/-- Counterexample to claim C9: `p = [1, 0, 0]` has trailing zero storage
(its degree is 0), and `Add(p, [2], f)` does not return normally — the copy
loop indexes past the 1-slot result and panics. -/
theorem polynomial.Add_trailing_zero_crash :
    polynomial.Degree [1, 0, 0] = 0 ∧ polynomial.Add [1, 0, 0] [2] 7 = .crash := by
  constructor <;> decide

/-- Claim C9 as amended: when each operand's backing storage is no longer
than `max(Degree p, Degree q) + 1` slots, `Add` returns normally and its
coefficient at every index is the field sum of the operands' coefficients at
that index (the shorter operand zero-padded); but when either operand's
storage extends past that bound — e.g. trailing zero slots beyond the degree
of the result — the Go code indexes out of range and panics. -/
theorem polynomial.Add_padded_spec (f : ℤ) (p q : List ℤ) :
    (p.length ≤ max (polynomial.Degree p) (polynomial.Degree q) + 1 →
      q.length ≤ max (polynomial.Degree p) (polynomial.Degree q) + 1 →
      ∃ s, polynomial.Add p q f = .ok s
        ∧ s.length = max (polynomial.Degree p) (polynomial.Degree q) + 1
        ∧ ∀ k < s.length, s.getD k 0 = (p.getD k 0 + q.getD k 0) % f)
    ∧ (max (polynomial.Degree p) (polynomial.Degree q) + 1 < p.length ∨
        max (polynomial.Degree p) (polynomial.Degree q) + 1 < q.length →
      polynomial.Add p q f = .crash) := by
  constructor
  · intro hp hq
    obtain ⟨s, hs, hslen, hsif, _⟩ := polynomial.Add_spec p q f hp hq
    refine ⟨s, hs, hslen, fun k hk => ?_⟩
    rw [hsif k, if_pos (hslen ▸ hk)]
  · intro h
    rw [polynomial.Add, if_neg (by omega)]

/-- Witness for the amended C9: adding `2v + 1` and `[3]` over `GF(7)`. -/
theorem polynomial.Add_padded_spec_witness :
    ∃ s, polynomial.Add [1, 2] [3] 7 = .ok s ∧ s.length = max 1 0 + 1
      ∧ ∀ k < s.length, s.getD k 0 = ([1, 2].getD k 0 + [3].getD k 0) % 7 :=
  (polynomial.Add_padded_spec 7 [1, 2] [3]).1 (by decide) (by decide)

/-! ### Failure behaviour of field inversion and division (C5, C6) -/

/-- Counterexample to claim C5: at order 7 and `x = 0` (which shares the
nontrivial factor 7 with the order), `MultInverse` returns no value (Go
`nil`) — but `Div` does not propagate an error to the caller: it crashes
(`big.Int.Mul` dereferences the nil inverse). -/
theorem galois.Div_zero_counterexample :
    galois.MultInverse 7 0 = none ∧ galois.Div 7 1 0 = .crash := by
  constructor <;> decide

/-- Claim C5 as amended: for every `x` sharing a nontrivial factor with the
order (`Int.gcd x f ≠ 1`, in particular `x = 0` for any order `> 1`),
`MultInverse` returns no value (Go `nil`, there is no error object), and
`Div(a, x)` panics on the nil dereference instead of returning a result or
propagating an error. -/
theorem galois.Div_noninvertible (f a x : ℤ) (h : Int.gcd x f ≠ 1) :
    galois.MultInverse f x = none ∧ galois.Div f a x = .crash :=
  ⟨galois.MultInverse_none h, galois.Div_crash h⟩

/-- Witness for the amended C5 at order 10, `x = 2`. -/
theorem galois.Div_noninvertible_witness :
    galois.MultInverse 10 2 = none ∧ galois.Div 10 1 2 = .crash :=
  galois.Div_noninvertible 10 1 2 (by decide)

/-- Counterexample to claim C6: `[0]` reduces to the zero polynomial, and
`Div([1], [0], 7)` crashes instead of reporting a `DivisionByZeroError`. -/
theorem polynomial.Div_zero_divisor_counterexample :
    polynomial.Degree ([0] : List ℤ) = 0 ∧ ([0] : List ℤ).getD 0 0 = 0
      ∧ polynomial.Div [1] [0] 7 = .crash := by
  refine ⟨by decide, by decide, by decide⟩

/-- Claim C6 as amended: for every canonically stored dividend and every
divisor that reduces to the zero polynomial, `Div` crashes — the first
quotient step divides by the divisor's zero leading coefficient, whose nil
`ModInverse` result is dereferenced — rather than failing with a
`DivisionByZeroError` (no such error exists in the code). -/
theorem polynomial.Div_zero_divisor (f : ℤ) (hf : 1 < f) (p d : List ℤ)
    (hp : p.length = polynomial.Degree p + 1) (hd : ∀ c ∈ d, c = 0) :
    polynomial.Div p d f = .crash := by
  have hd0 : polynomial.Degree d = 0 :=
    polynomial.Degree_eq_zero_of fun k _ => spec.getD_zero_of_all hd k
  unfold polynomial.Div
  rw [polynomial.Clone_ok_of_canonical hp]
  show GoRes.bind (polynomial.NewZeroPolynomial
      ((polynomial.Degree p : ℤ) - (polynomial.Degree d : ℤ))) _ = .crash
  have hnz : polynomial.NewZeroPolynomial
      ((polynomial.Degree p : ℤ) - (polynomial.Degree d : ℤ))
      = .ok (List.replicate (polynomial.Degree p + 1) 0) := by
    unfold polynomial.NewZeroPolynomial
    rw [hd0, if_neg (by push_cast; omega)]
    have harg : ((polynomial.Degree p : ℤ) - ((0 : ℕ) : ℤ) + 1).toNat
        = polynomial.Degree p + 1 := by omega
    rw [harg]
  rw [hnz]
  show polynomial.divLoop p d f (polynomial.Degree p + 2)
    (List.replicate (polynomial.Degree p + 1) 0) p = .crash
  show polynomial.divLoop p d f ((polynomial.Degree p + 1) + 1)
    (List.replicate (polynomial.Degree p + 1) 0) p = .crash
  unfold polynomial.divLoop
  rw [hd0, if_neg (Nat.not_lt_zero _), spec.getD_zero_of_all hd 0]
  have hgcd : Int.gcd 0 f ≠ 1 := by
    rw [Int.gcd_zero_left]
    omega
  rw [galois.Div_crash hgcd]
  rfl

/-- Witness for the amended C6 at `f = 7`, dividend `[1]`, divisor `[0]`. -/
theorem polynomial.Div_zero_divisor_witness : polynomial.Div [1] [0] 7 = .crash :=
  polynomial.Div_zero_divisor 7 (by decide) [1] [0] (by decide) (by decide)

/-! ### The inverted divisibility branch of `RootOfUnity` (C3) -/

/-- Claim C3 is contradicted by the code: at order 7 with `n = 2` — where `2`
DOES divide `order - 1 = 6` — the function returns `1` immediately for any
random stream, even when a primitive root is requested (the correct answer
would be a sampled root, here `6`); and at order 7 with `n = 4` — where `4`
does NOT divide `6` — it samples: with first draw `3` it returns
`3^(6/4) = 3`, not `1`.  The branch is inverted relative to the claim and the
function's own doc comment. -/
theorem galois.RootOfUnity_inverted (draws l : List ℤ) :
    galois.RootOfUnity 7 draws 2 true = .ok 1
      ∧ galois.RootOfUnity 7 (3 :: l) 4 false = .ok 3 := by
  constructor
  · rfl
  · rfl

/-! ### Negative quotient allocation in `Div` (C10) -/

/-- Claim C10: with divisor degree `Degree p + 2` (here dividend `[1]` of
degree 0 and divisor `v²` of degree 2), `Div` crashes in
`NewZeroPolynomial(Degree p - Degree d)` — a `make` with negative length —
while at the boundary `Degree d = Degree p + 1` it still returns a (empty
quotient) pair. -/
theorem polynomial.Div_negative_alloc :
    polynomial.Degree [0, 0, 1] = polynomial.Degree [1] + 2
      ∧ polynomial.Div [1] [0, 0, 1] 7 = .crash
      ∧ polynomial.Div [1] [0, 1] 7 = .ok ([], [1]) := by
  refine ⟨by decide, by decide, by decide⟩

/-! ### Evaluating in the exponent (C4) -/

theorem polynomial.powCell_modEq (x f : ℤ) : ∀ j, polynomial.powCell x f j ≡ x ^ j [ZMOD f]
  | 0 => Int.ModEq.rfl
  | j + 1 => by
    show (polynomial.powCell x f j * x) % f ≡ x ^ (j + 1) [ZMOD f]
    calc (polynomial.powCell x f j * x) % f
        ≡ polynomial.powCell x f j * x [ZMOD f] := spec.emod_modEq _ _
      _ ≡ x ^ j * x [ZMOD f] := Int.ModEq.mul (polynomial.powCell_modEq x f j) Int.ModEq.rfl
      _ = x ^ (j + 1) := (pow_succ x j).symm

theorem polynomial.EvaluateOnPowers_fold {G : Type} (gadd : G → G → G) (gsmul : G → ℤ → G)
    (B : ℤ → G) (hadd : ∀ a b, gadd (B a) (B b) = B (a + b))
    (hsmul : ∀ a s, gsmul (B a) s = B (a * s)) (p : List ℤ) :
    ∀ (ps : List ℤ) (k : ℕ) (acc : ℤ),
      ((ps.map B).enumFrom k).foldl (fun y ix => gadd y (gsmul ix.2 (p.getD ix.1 0))) (B acc)
        = B (acc + ∑ j ∈ Finset.range ps.length, ps.getD j 0 * p.getD (k + j) 0) := by
  intro ps
  induction ps with
  | nil => intro k acc; simp
  | cons a t ih =>
    intro k acc
    rw [List.map_cons, List.enumFrom_cons, List.foldl_cons]
    show (((t.map B).enumFrom (k + 1)).foldl (fun y ix => gadd y (gsmul ix.2 (p.getD ix.1 0)))
      (gadd (B acc) (gsmul (B a) (p.getD k 0)))) = _
    rw [hsmul, hadd, ih (k + 1) (acc + a * p.getD k 0)]
    congr 1
    rw [List.length_cons, Finset.sum_range_succ']
    have hsh : ∀ j ∈ Finset.range t.length,
        (a :: t).getD (j + 1) 0 * p.getD (k + (j + 1)) 0
          = t.getD j 0 * p.getD (k + 1 + j) 0 := by
      intro j _
      rw [List.getD_cons_succ]
      congr 2
      omega
    rw [Finset.sum_congr rfl hsh, List.getD_cons_zero]
    simp only [Nat.add_zero]
    abel

/-- Claim C4: for any group presentation `(gadd, gsmul, B)` satisfying the
`GroupElement` laws (`B` turns integer addition into the group operation,
`gsmul` acts on encoded values as multiplication of exponents, and `B`
factors through reduction mod the field order), evaluating a polynomial on
the encoded powers `B(x^0), ..., B(x^(len p - 1))` equals the base-point
encoding of the plaintext Horner evaluation. -/
theorem polynomial.EvaluateOnPowers_hom {G : Type} (gadd : G → G → G) (gsmul : G → ℤ → G)
    (B : ℤ → G) (f : ℤ)
    (hadd : ∀ a b, gadd (B a) (B b) = B (a + b))
    (hsmul : ∀ a s, gsmul (B a) s = B (a * s))
    (hmod : ∀ a, B (a % f) = B a)
    (p : List ℤ) (x y : ℤ) (hy : polynomial.Evaluate p x f = .ok y) :
    polynomial.EvaluateOnPowers gadd gsmul B p
      ((polynomial.ComputePowers x p.length f).map B) = .ok (B y) := by
  have hne : p ≠ [] := by
    intro h
    rw [h] at hy
    exact absurd hy (by simp [polynomial.Evaluate])
  have hyval : y = spec.sumEval p x % f := by
    have := polynomial.Evaluate_ok p x f hne
    rw [hy] at this
    exact (GoRes.ok.injEq _ _).mp this
  have hBcong : ∀ a b : ℤ, a ≡ b [ZMOD f] → B a = B b := by
    intro a b hab
    rw [← hmod a, ← hmod b, spec.modEq_emod_eq hab]
  have hlen : p.length = ((polynomial.ComputePowers x p.length f).map B).length := by
    simp [polynomial.ComputePowers]
  unfold polynomial.EvaluateOnPowers
  rw [if_pos hlen]
  have hfold := polynomial.EvaluateOnPowers_fold gadd gsmul B hadd hsmul p
    (polynomial.ComputePowers x p.length f) 0 0
  rw [show ((polynomial.ComputePowers x p.length f).map B).enum
      = ((polynomial.ComputePowers x p.length f).map B).enumFrom 0 from rfl, hfold]
  congr 1
  rw [zero_add, hyval, hmod]
  apply hBcong
  have hlen2 : (polynomial.ComputePowers x p.length f).length = p.length := by
    simp [polynomial.ComputePowers]
  calc ∑ j ∈ Finset.range (polynomial.ComputePowers x p.length f).length,
        (polynomial.ComputePowers x p.length f).getD j 0 * p.getD (0 + j) 0
      ≡ ∑ j ∈ Finset.range (polynomial.ComputePowers x p.length f).length,
          p.getD j 0 * x ^ j [ZMOD f] := by
        apply spec.sum_modEq
        intro j hj
        have hcell : (polynomial.ComputePowers x p.length f).getD j 0
            = polynomial.powCell x f j := by
          unfold polynomial.ComputePowers
          rw [spec.getD_map_range, if_pos (by rw [← hlen2]; exact Finset.mem_range.mp hj)]
        rw [hcell, zero_add]
        calc polynomial.powCell x f j * p.getD j 0
            ≡ x ^ j * p.getD j 0 [ZMOD f] :=
              Int.ModEq.mul (polynomial.powCell_modEq x f j) Int.ModEq.rfl
          _ = p.getD j 0 * x ^ j := mul_comm _ _
    _ = spec.sumEval p x := by rw [hlen2]; rfl

/-- Witness for C4 with the concrete group `(ℤ mod 5, +)` presented by
`B a = a % 5`, at `p = 2v + 1`, `x = 3`. -/
theorem polynomial.EvaluateOnPowers_hom_witness :
    polynomial.EvaluateOnPowers (fun a b : ℤ => (a + b) % 5) (fun a s => (a * s) % 5)
      (fun a => a % 5) [1, 2] ((polynomial.ComputePowers 3 2 5).map (fun a => a % 5))
      = .ok 2 := by
  have h := polynomial.EvaluateOnPowers_hom (fun a b : ℤ => (a + b) % 5)
    (fun a s => (a * s) % 5) (fun a => a % 5) 5
    (fun a b => by show (a % 5 + b % 5) % 5 = (a + b) % 5; rw [← Int.add_emod])
    (fun a s => by show (a % 5 * s) % 5 = (a * s) % 5; rw [spec.emod_mul_left])
    (fun a => by show a % 5 % 5 = a % 5; rw [Int.emod_emod])
    [1, 2] 3 2 (by decide)
  simpa using h

/-! ### Further convolution helpers for the division proof -/

theorem spec.getD_bounds {l : List ℤ} {n : ℤ} (hn : 0 < n)
    (hc : ∀ c ∈ l, 0 ≤ c ∧ c < n) (k : ℕ) : 0 ≤ l.getD k 0 ∧ l.getD k 0 < n := by
  rcases spec.getD_zero_of_reduced hc k with h | h
  · exact h
  · rw [h]; exact ⟨le_refl 0, hn⟩

/-- The top coefficient of a convolution is the product of the leading
coefficients. -/
theorem spec.conv_top (a b : List ℤ) :
    spec.conv a b (polynomial.Degree a + polynomial.Degree b)
      = a.getD (polynomial.Degree a) 0 * b.getD (polynomial.Degree b) 0 := by
  unfold spec.conv
  rw [show a.getD (polynomial.Degree a) 0 * b.getD (polynomial.Degree b) 0
      = a.getD (polynomial.Degree a) 0 *
        b.getD (polynomial.Degree a + polynomial.Degree b - polynomial.Degree a) 0 by
    congr 2
    omega]
  apply Finset.sum_eq_single (polynomial.Degree a)
  · intro i _ hne
    rcases Nat.lt_or_ge (polynomial.Degree a) i with hgt | hle
    · rw [polynomial.getD_zero_of_Degree_lt hgt, zero_mul]
    · rw [polynomial.getD_zero_of_Degree_lt (p := b) (by omega), mul_zero]
  · intro hmem
    exact absurd (Finset.mem_range.mpr (by omega)) hmem

/-- Adding a coefficient `c` into a zero slot `s` of `q` adds the
correspondingly shifted copy of `d` to the convolution. -/
theorem spec.conv_addRow (d q : List ℤ) (c : ℤ) (s : ℕ) (hs : s < q.length)
    (h0 : q.getD s 0 = 0) (k : ℕ) :
    spec.conv d (q.set s c) k
      = spec.conv d q k + (if s ≤ k then d.getD (k - s) 0 * c else 0) := by
  have hq2 : ∀ j, (q.set s c).getD j 0 = q.getD j 0 + (if j = s then c else 0) := by
    intro j
    rw [spec.getD_set]
    by_cases hj : j = s
    · rw [if_pos ⟨hj.symm, hj ▸ hs⟩, if_pos hj, hj, h0, zero_add]
    · rw [if_neg (by tauto), if_neg hj, add_zero]
  unfold spec.conv
  have hterm : ∀ i ∈ Finset.range (k + 1),
      d.getD i 0 * (q.set s c).getD (k - i) 0
        = d.getD i 0 * q.getD (k - i) 0 + (if k - i = s then d.getD i 0 * c else 0) := by
    intro i _
    rw [hq2]
    by_cases hj : k - i = s
    · rw [if_pos hj, if_pos hj]; ring
    · rw [if_neg hj, if_neg hj]; ring
  rw [Finset.sum_congr rfl hterm, Finset.sum_add_distrib]
  congr 1
  by_cases hsk : s ≤ k
  · rw [if_pos hsk]
    calc (∑ i ∈ Finset.range (k + 1), if k - i = s then d.getD i 0 * c else 0)
        = ∑ i ∈ Finset.range (k + 1), if i = k - s then d.getD i 0 * c else 0 := by
          apply Finset.sum_congr rfl
          intro i hi
          have hik := Nat.lt_succ_iff.mp (Finset.mem_range.mp hi)
          by_cases hj : k - i = s
          · rw [if_pos hj, if_pos (by omega)]
          · rw [if_neg hj, if_neg (by omega)]
      _ = if k - s ∈ Finset.range (k + 1) then d.getD (k - s) 0 * c else 0 :=
          Finset.sum_ite_eq' _ _ _
      _ = d.getD (k - s) 0 * c := if_pos (Finset.mem_range.mpr (by omega))
  · rw [if_neg hsk]
    apply Finset.sum_eq_zero
    intro i hi
    have hik := Nat.lt_succ_iff.mp (Finset.mem_range.mp hi)
    rw [if_neg (by omega)]

/-- Convolving with the constant `-1` negates every coefficient. -/
theorem spec.conv_neg_one (m : List ℤ) (k : ℕ) :
    spec.conv m [-1] k = -(m.getD k 0) := by
  unfold spec.conv
  rw [show -(m.getD k 0) = m.getD k 0 * ([-1] : List ℤ).getD (k - k) 0 by
    rw [Nat.sub_self]; simp]
  apply Finset.sum_eq_single k
  · intro i hi hne
    have hik := Nat.lt_succ_iff.mp (Finset.mem_range.mp hi)
    have h1 : 1 ≤ k - i := by omega
    have : ([-1] : List ℤ).getD (k - i) 0 = 0 := by
      rcases Nat.exists_eq_add_of_le h1 with ⟨j, hj⟩
      rw [hj, show 1 + j = j + 1 by omega, List.getD_cons_succ]
      simp
    rw [this, mul_zero]
  · intro hmem
    exact absurd (Finset.mem_range.mpr (by omega)) hmem

/-! ### The long-division loop (C1) -/

/-- One unfolding of the division loop, given the outcomes of the field
division, the product, and the subtraction of that iteration. -/
theorem polynomial.divLoop_step {p d q num : List ℤ} {n c : ℤ} {m mneg num2 : List ℤ}
    {F : ℕ}
    (hlt : ¬ polynomial.Degree num < polynomial.Degree d)
    (hDiv : galois.Div n (num.getD (polynomial.Degree num) 0)
      (d.getD (polynomial.Degree d) 0) = .ok c)
    (hm : polynomial.Mul d (q.set (polynomial.Degree num - polynomial.Degree d) c) n
      = .ok m)
    (hmneg : polynomial.Mul m [-1] n = .ok mneg)
    (hadd : polynomial.Add p mneg n = .ok num2) :
    polynomial.divLoop p d n (F + 1) q num
      = if polynomial.Degree num2 = 0 ∧ num2.getD 0 0 = 0
        then .ok (q.set (polynomial.Degree num - polynomial.Degree d) c, num2)
        else polynomial.divLoop p d n F
          (q.set (polynomial.Degree num - polynomial.Degree d) c) num2 := by
  conv_lhs => unfold polynomial.divLoop
  rw [if_neg hlt, hDiv]
  show GoRes.bind (polynomial.Mul d
    (q.set (polynomial.Degree num - polynomial.Degree d) c) n) _ = _
  rw [hm]
  show GoRes.bind (polynomial.Sub p m n) _ = _
  unfold polynomial.Sub
  rw [hmneg]
  show GoRes.bind (polynomial.Add p mneg n) _ = _
  rw [hadd]
  rfl

set_option maxHeartbeats 2000000 in
/-- Invariant-carrying description of the full division loop: from a state
whose numerator equals `p - d*q` coefficientwise mod `n` (everything reduced,
canonical lengths), the loop returns a quotient/remainder pair with the same
relation, the remainder either of degree below the divisor's or identically
zero. -/
theorem polynomial.divLoop_spec (n : ℤ) (h1 : 1 < n) (hpr : Prime n) (p d : List ℤ)
    (hp : p.length = polynomial.Degree p + 1)
    (hd : d.length = polynomial.Degree d + 1)
    (hgcd : Int.gcd (d.getD (polynomial.Degree d) 0) n = 1)
    (hdeg : polynomial.Degree d ≤ polynomial.Degree p) :
    ∀ (fuel : ℕ) (q num : List ℤ),
      num.length = polynomial.Degree p + 1 →
      (∀ c ∈ num, 0 ≤ c ∧ c < n) →
      q.length = polynomial.Degree p - polynomial.Degree d + 1 →
      (∀ c ∈ q, 0 ≤ c ∧ c < n) →
      (∀ k, num.getD k 0 ≡ p.getD k 0 - spec.conv d q k [ZMOD n]) →
      (∀ s, s + polynomial.Degree d ≤ polynomial.Degree num → q.getD s 0 = 0) →
      (polynomial.Degree num < polynomial.Degree p →
        (polynomial.Degree p = polynomial.Degree d ∨
          q.getD (polynomial.Degree p - polynomial.Degree d) 0 ≠ 0)) →
      polynomial.Degree num + 1 ≤ fuel →
      ∃ qf r, polynomial.divLoop p d n fuel q num = .ok (qf, r)
        ∧ qf.length = polynomial.Degree p - polynomial.Degree d + 1
        ∧ (∀ c ∈ qf, 0 ≤ c ∧ c < n)
        ∧ r.length = polynomial.Degree p + 1
        ∧ (∀ c ∈ r, 0 ≤ c ∧ c < n)
        ∧ (∀ k, r.getD k 0 ≡ p.getD k 0 - spec.conv d qf k [ZMOD n])
        ∧ (polynomial.Degree r < polynomial.Degree d ∨ ∀ k, r.getD k 0 = 0)
        ∧ (polynomial.Degree d < polynomial.Degree p →
            qf.getD (polynomial.Degree p - polynomial.Degree d) 0 ≠ 0) := by
  intro fuel
  induction fuel with
  | zero => intro q num _ _ _ _ _ _ _ hfuel; omega
  | succ F ih =>
    intro q num hnlen hnred hqlen hqred hcong hJ hL hfuel
    have hn0 : (0 : ℤ) < n := by omega
    have hedp : polynomial.Degree num ≤ polynomial.Degree p := by
      have := polynomial.Degree_le num
      omega
    by_cases hlt : polynomial.Degree num < polynomial.Degree d
    · refine ⟨q, num, ?_, hqlen, hqred, hnlen, hnred, hcong, Or.inl hlt, ?_⟩
      · conv_lhs => unfold polynomial.divLoop
        rw [if_pos hlt]
      · intro hddlt
        rcases hL (by omega) with h | h
        · omega
        · exact h
    · push_neg at hlt
      have hDiv := galois.Div_ok (f := n)
        (x := num.getD (polynomial.Degree num) 0) hgcd
      have hinv := galois.MultInverse_ok (galois.MultInverse_isSome (f := n) hgcd)
      obtain ⟨c, hcdef⟩ : ∃ c, (num.getD (polynomial.Degree num) 0 *
          (Int.gcdA (d.getD (polynomial.Degree d) 0) n % n)) % n = c := ⟨_, rfl⟩
      rw [hcdef] at hDiv
      have hcred : 0 ≤ c ∧ c < n := by
        rw [← hcdef]
        exact spec.emod_reduced hn0
      have hccong : c ≡ num.getD (polynomial.Degree num) 0 *
          (Int.gcdA (d.getD (polynomial.Degree d) 0) n % n) [ZMOD n] := by
        rw [← hcdef]
        exact spec.emod_modEq _ _
      have hcne : 1 ≤ polynomial.Degree num → c ≠ 0 := by
        intro he1 hc0
        have hnume : num.getD (polynomial.Degree num) 0 ≠ 0 :=
          polynomial.getD_Degree_ne (by omega)
        have hb := spec.getD_bounds hn0 hnred (polynomial.Degree num)
        have hdvd : n ∣ num.getD (polynomial.Degree num) 0 *
            (Int.gcdA (d.getD (polynomial.Degree d) 0) n % n) := by
          apply Int.dvd_of_emod_eq_zero
          rw [hcdef]
          exact hc0
        rcases (Prime.dvd_mul hpr).mp hdvd with h | h
        · exact spec.not_dvd_of_reduced hb.1 hb.2 hnume h
        · have h2 : d.getD (polynomial.Degree d) 0 *
              (Int.gcdA (d.getD (polynomial.Degree d) 0) n % n) ≡ 0 [ZMOD n] :=
            Int.modEq_zero_iff_dvd.mpr (Dvd.dvd.mul_left h _)
          have h3 : (1 : ℤ) ≡ 0 [ZMOD n] := hinv.symm.trans h2
          have h4 : n ∣ 1 := Int.modEq_zero_iff_dvd.mp h3
          have := Int.le_of_dvd one_pos h4
          omega
      have hslot : polynomial.Degree num - polynomial.Degree d < q.length := by omega
      have hq0slot : q.getD (polynomial.Degree num - polynomial.Degree d) 0 = 0 :=
        hJ _ (by omega)
      have hq2len : (q.set (polynomial.Degree num - polynomial.Degree d) c).length
          = polynomial.Degree p - polynomial.Degree d + 1 := by
        rw [List.length_set]
        exact hqlen
      have hq2getD : ∀ j, (q.set (polynomial.Degree num - polynomial.Degree d) c).getD j 0
          = if polynomial.Degree num - polynomial.Degree d = j ∧ j < q.length
            then c else q.getD j 0 := fun j => spec.getD_set q _ j c
      have hq2red : ∀ c2 ∈ q.set (polynomial.Degree num - polynomial.Degree d) c,
          0 ≤ c2 ∧ c2 < n := by
        apply spec.reduced_of_getD
        intro k _
        rw [hq2getD k]
        by_cases hcase : polynomial.Degree num - polynomial.Degree d = k ∧ k < q.length
        · rw [if_pos hcase]
          exact hcred
        · rw [if_neg hcase]
          exact spec.getD_bounds hn0 hqred k
      have hconv2 := spec.conv_addRow d q c (polynomial.Degree num - polynomial.Degree d)
        hslot hq0slot
      have hq2top : polynomial.Degree d < polynomial.Degree p →
          (q.set (polynomial.Degree num - polynomial.Degree d) c).getD
            (polynomial.Degree p - polynomial.Degree d) 0 ≠ 0 := by
        intro hddlt
        rw [hq2getD]
        rcases Nat.lt_or_ge (polynomial.Degree num) (polynomial.Degree p) with hel | hge
        · rw [if_neg (by omega)]
          rcases hL hel with h | h
          · omega
          · exact h
        · rw [if_pos (by omega)]
          exact hcne (by omega)
      have hdq2le : polynomial.Degree (q.set (polynomial.Degree num - polynomial.Degree d) c)
          ≤ polynomial.Degree p - polynomial.Degree d := by
        have := polynomial.Degree_le (q.set (polynomial.Degree num - polynomial.Degree d) c)
        omega
      have hmulguard : ∀ ij ∈ polynomial.mulPairs d.length
          (q.set (polynomial.Degree num - polynomial.Degree d) c).length,
          ij.1 + ij.2 < polynomial.Degree d +
            polynomial.Degree (q.set (polynomial.Degree num - polynomial.Degree d) c) + 1 := by
        intro ij hij
        unfold polynomial.mulPairs at hij
        simp only [List.mem_flatMap, List.mem_map, List.mem_range] at hij
        obtain ⟨i, hi, j, hj, rfl⟩ := hij
        rw [hd] at hi
        rw [hq2len] at hj
        rcases Nat.eq_or_lt_of_le hdeg with heq | hddlt
        · omega
        · have hdq2 : polynomial.Degree (q.set (polynomial.Degree num - polynomial.Degree d) c)
              = polynomial.Degree p - polynomial.Degree d :=
            le_antisymm hdq2le (polynomial.le_Degree_of_getD_ne (by omega) (hq2top hddlt))
          omega
      obtain ⟨m, hm, hmlen, hmco⟩ := polynomial.Mul_spec d
        (q.set (polynomial.Degree num - polynomial.Degree d) c) n hmulguard
      have hq2topD : 1 ≤ polynomial.Degree d +
          polynomial.Degree (q.set (polynomial.Degree num - polynomial.Degree d) c) →
          (q.set (polynomial.Degree num - polynomial.Degree d) c).getD
            (polynomial.Degree (q.set (polynomial.Degree num - polynomial.Degree d) c)) 0
              ≠ 0 := by
        intro hsum
        rcases Nat.eq_zero_or_pos
          (polynomial.Degree (q.set (polynomial.Degree num - polynomial.Degree d) c))
          with hz | hpos
        · rw [hz]
          have hc0 : c ≠ 0 := hcne (by omega)
          have hslot0 : polynomial.Degree num - polynomial.Degree d = 0 := by
            by_contra hs0
            have hge1 : 1 ≤ polynomial.Degree num - polynomial.Degree d := by omega
            have hne2 : (q.set (polynomial.Degree num - polynomial.Degree d) c).getD
                (polynomial.Degree num - polynomial.Degree d) 0 ≠ 0 := by
              rw [hq2getD, if_pos ⟨rfl, hslot⟩]
              exact hc0
            have := polynomial.le_Degree_of_getD_ne hge1 hne2
            omega
          rw [hq2getD, if_pos ⟨hslot0, by omega⟩]
          exact hc0
        · exact polynomial.getD_Degree_ne (by omega)
      have hDm : polynomial.Degree m = polynomial.Degree d +
          polynomial.Degree (q.set (polynomial.Degree num - polynomial.Degree d) c) := by
        rcases Nat.eq_zero_or_pos (polynomial.Degree d +
          polynomial.Degree (q.set (polynomial.Degree num - polynomial.Degree d) c))
          with hz | hpos
        · have := polynomial.Degree_le m
          omega
        · apply polynomial.Degree_eq_of hpos
          · rw [hmco, spec.conv_top]
            apply spec.emod_ne_zero
            intro hdvd
            rcases (Prime.dvd_mul hpr).mp hdvd with h | h
            · have h5 : n ∣ (Int.gcd (d.getD (polynomial.Degree d) 0) n : ℤ) :=
                Int.dvd_gcd h (dvd_refl n)
              rw [hgcd] at h5
              have := Int.le_of_dvd one_pos h5
              omega
            · have hb := spec.getD_bounds hn0 hq2red
                (polynomial.Degree (q.set (polynomial.Degree num - polynomial.Degree d) c))
              exact spec.not_dvd_of_reduced hb.1 hb.2 (hq2topD hpos) h
          · intro k hk
            apply List.getD_eq_default
            omega
      have hmnegguard : ∀ ij ∈ polynomial.mulPairs m.length ([(-1 : ℤ)].length),
          ij.1 + ij.2 < polynomial.Degree m + polynomial.Degree [(-1 : ℤ)] + 1 := by
        intro ij hij
        unfold polynomial.mulPairs at hij
        simp only [List.mem_flatMap, List.mem_map, List.mem_range] at hij
        obtain ⟨i, hi, j, hj, rfl⟩ := hij
        simp only [List.length_singleton] at hj
        rw [show polynomial.Degree [(-1 : ℤ)] = 0 from rfl]
        omega
      obtain ⟨mneg, hmneg, hmneglen, hmnegco⟩ := polynomial.Mul_spec m [-1] n hmnegguard
      rw [show polynomial.Degree [(-1 : ℤ)] = 0 from rfl] at hmneglen
      have hmnegDegle : polynomial.Degree mneg ≤ polynomial.Degree p := by
        have := polynomial.Degree_le mneg
        omega
      have haddg1 : p.length ≤ max (polynomial.Degree p) (polynomial.Degree mneg) + 1 := by
        have := le_max_left (polynomial.Degree p) (polynomial.Degree mneg)
        omega
      have haddg2 : mneg.length ≤ max (polynomial.Degree p) (polynomial.Degree mneg) + 1 := by
        have := le_max_left (polynomial.Degree p) (polynomial.Degree mneg)
        omega
      obtain ⟨num2, hadd, hn2len0, hn2if, hn2cong⟩ := polynomial.Add_spec p mneg n haddg1 haddg2
      have hmaxeq : max (polynomial.Degree p) (polynomial.Degree mneg) = polynomial.Degree p :=
        max_eq_left hmnegDegle
      have hn2len : num2.length = polynomial.Degree p + 1 := by
        rw [hn2len0, hmaxeq]
      have hn2red : ∀ c2 ∈ num2, 0 ≤ c2 ∧ c2 < n := by
        apply spec.reduced_of_getD
        intro k hk
        rw [hn2if k, if_pos (by omega)]
        exact spec.emod_reduced hn0
      have hnum2conv : ∀ k, num2.getD k 0 ≡ p.getD k 0 -
          spec.conv d (q.set (polynomial.Degree num - polynomial.Degree d) c) k [ZMOD n] := by
        intro k
        calc num2.getD k 0
            ≡ p.getD k 0 + mneg.getD k 0 [ZMOD n] := hn2cong k
          _ ≡ p.getD k 0 + -(m.getD k 0) [ZMOD n] := by
              apply Int.ModEq.add Int.ModEq.rfl
              rw [hmnegco k, spec.conv_neg_one]
              exact spec.emod_modEq _ _
          _ ≡ p.getD k 0 + -(spec.conv d
                (q.set (polynomial.Degree num - polynomial.Degree d) c) k) [ZMOD n] := by
              apply Int.ModEq.add Int.ModEq.rfl
              apply Int.ModEq.neg
              rw [hmco k]
              exact spec.emod_modEq _ _
          _ = p.getD k 0 - spec.conv d
                (q.set (polynomial.Degree num - polynomial.Degree d) c) k := by ring
      have hzero : ∀ k, polynomial.Degree num ≤ k → num2.getD k 0 = 0 := by
        intro k hk
        have hX : num2.getD k 0 ≡ num.getD k 0 -
            d.getD (k - (polynomial.Degree num - polynomial.Degree d)) 0 * c [ZMOD n] := by
          have h5 := hnum2conv k
          rw [hconv2 k, if_pos (by omega)] at h5
          calc num2.getD k 0
              ≡ p.getD k 0 - (spec.conv d q k +
                  d.getD (k - (polynomial.Degree num - polynomial.Degree d)) 0 * c) [ZMOD n] := h5
            _ = (p.getD k 0 - spec.conv d q k) -
                  d.getD (k - (polynomial.Degree num - polynomial.Degree d)) 0 * c := by ring
            _ ≡ num.getD k 0 -
                  d.getD (k - (polynomial.Degree num - polynomial.Degree d)) 0 * c [ZMOD n] :=
                Int.ModEq.sub (hcong k).symm Int.ModEq.rfl
        have hbounds := spec.getD_bounds hn0 hn2red k
        rcases Nat.eq_or_lt_of_le hk with heq | hgt
        · apply spec.modEq_zero_eq_zero ?_ hbounds.1 hbounds.2
          have hidx : k - (polynomial.Degree num - polynomial.Degree d)
              = polynomial.Degree d := by omega
          rw [hidx] at hX
          calc num2.getD k 0
              ≡ num.getD k 0 - d.getD (polynomial.Degree d) 0 * c [ZMOD n] := hX
            _ ≡ num.getD k 0 - d.getD (polynomial.Degree d) 0 *
                  (num.getD (polynomial.Degree num) 0 *
                    (Int.gcdA (d.getD (polynomial.Degree d) 0) n % n)) [ZMOD n] :=
                Int.ModEq.sub Int.ModEq.rfl (Int.ModEq.mul Int.ModEq.rfl hccong)
            _ = num.getD k 0 - (d.getD (polynomial.Degree d) 0 *
                  (Int.gcdA (d.getD (polynomial.Degree d) 0) n % n)) *
                    num.getD (polynomial.Degree num) 0 := by ring
            _ ≡ num.getD k 0 - 1 * num.getD (polynomial.Degree num) 0 [ZMOD n] :=
                Int.ModEq.sub Int.ModEq.rfl (Int.ModEq.mul hinv Int.ModEq.rfl)
            _ = 0 := by rw [heq]; ring
        · apply spec.modEq_zero_eq_zero ?_ hbounds.1 hbounds.2
          have h6 : num.getD k 0 = 0 := polynomial.getD_zero_of_Degree_lt hgt
          have h7 : d.getD (k - (polynomial.Degree num - polynomial.Degree d)) 0 = 0 :=
            polynomial.getD_zero_of_Degree_lt (by omega)
          calc num2.getD k 0
              ≡ num.getD k 0 -
                  d.getD (k - (polynomial.Degree num - polynomial.Degree d)) 0 * c [ZMOD n] := hX
            _ = 0 := by rw [h6, h7]; ring
      have hstep := polynomial.divLoop_step (p := p) (F := F) (by omega) hDiv hm hmneg hadd
      by_cases hbreak : polynomial.Degree num2 = 0 ∧ num2.getD 0 0 = 0
      · refine ⟨q.set (polynomial.Degree num - polynomial.Degree d) c, num2,
          by rw [hstep, if_pos hbreak], hq2len, hq2red, hn2len, hn2red, hnum2conv,
          Or.inr ?_, hq2top⟩
        intro k
        rcases Nat.eq_zero_or_pos k with rfl | hkpos
        · exact hbreak.2
        · exact polynomial.getD_zero_of_Degree_lt (by omega)
      · have hdeg2 : polynomial.Degree num2 < polynomial.Degree num := by
          rcases Nat.eq_zero_or_pos (polynomial.Degree num) with he0 | he1
          · exact absurd ⟨polynomial.Degree_eq_zero_of fun k hk => hzero k (by omega),
              hzero 0 (by omega)⟩ hbreak
          · exact polynomial.Degree_lt_of he1 (fun k hk => hzero k hk)
        have hJ2 : ∀ s, s + polynomial.Degree d ≤ polynomial.Degree num2 →
            (q.set (polynomial.Degree num - polynomial.Degree d) c).getD s 0 = 0 := by
          intro s hs
          rw [hq2getD, if_neg (by omega)]
          exact hJ s (by omega)
        have hL2 : polynomial.Degree num2 < polynomial.Degree p →
            (polynomial.Degree p = polynomial.Degree d ∨
              (q.set (polynomial.Degree num - polynomial.Degree d) c).getD
                (polynomial.Degree p - polynomial.Degree d) 0 ≠ 0) := by
          intro _
          rcases Nat.eq_or_lt_of_le hdeg with heq | hddlt
          · exact Or.inl heq.symm
          · exact Or.inr (hq2top hddlt)
        obtain ⟨qf, r, hrun, hres⟩ :=
          ih (q.set (polynomial.Degree num - polynomial.Degree d) c)
            num2 hn2len hn2red hq2len hq2red hnum2conv hJ2 hL2 (by omega)
        exact ⟨qf, r, by rw [hstep, if_neg hbreak]; exact hrun, hres⟩

theorem spec.conv_zero_right {b : List ℤ} (hb : ∀ c ∈ b, c = 0) (a : List ℤ) (k : ℕ) :
    spec.conv a b k = 0 := by
  unfold spec.conv
  apply Finset.sum_eq_zero
  intro i _
  rw [spec.getD_zero_of_all hb (k - i), mul_zero]

theorem spec.list_eq_of_getD {l1 l2 : List ℤ} (hlen : l1.length = l2.length)
    (h : ∀ k, k < l1.length → l1.getD k 0 = l2.getD k 0) : l1 = l2 := by
  apply List.ext_getElem hlen
  intro k h1 h2
  have := h k h1
  rwa [spec.getD_eq_getElem l1 k h1, spec.getD_eq_getElem l2 k h2] at this

/-- Full description of `Polynomial.Div` over a prime-order field: for a
reduced, canonically stored dividend and a canonically stored divisor with
invertible leading coefficient and degree at most the dividend's, the
division returns a reduced quotient/remainder pair related to the dividend
by `r ≡ p - d*q` coefficientwise, with the remainder of smaller degree than
the divisor or identically zero. -/
theorem polynomial.Div_spec (n : ℤ) (h1 : 1 < n) (hpr : Prime n) (p d : List ℤ)
    (hp : p.length = polynomial.Degree p + 1)
    (hpc : ∀ c ∈ p, 0 ≤ c ∧ c < n)
    (hd : d.length = polynomial.Degree d + 1)
    (hgcd : Int.gcd (d.getD (polynomial.Degree d) 0) n = 1)
    (hdeg : polynomial.Degree d ≤ polynomial.Degree p) :
    ∃ q r, polynomial.Div p d n = .ok (q, r)
      ∧ q.length = polynomial.Degree p - polynomial.Degree d + 1
      ∧ (∀ c ∈ q, 0 ≤ c ∧ c < n)
      ∧ r.length = polynomial.Degree p + 1
      ∧ (∀ c ∈ r, 0 ≤ c ∧ c < n)
      ∧ (∀ k, r.getD k 0 ≡ p.getD k 0 - spec.conv d q k [ZMOD n])
      ∧ (polynomial.Degree r < polynomial.Degree d ∨ ∀ k, r.getD k 0 = 0)
      ∧ (polynomial.Degree d < polynomial.Degree p →
          q.getD (polynomial.Degree p - polynomial.Degree d) 0 ≠ 0) := by
  have hn0 : (0 : ℤ) < n := by omega
  have hq0red : ∀ c ∈ List.replicate
      (polynomial.Degree p - polynomial.Degree d + 1) (0 : ℤ), c = 0 :=
    fun c hc => List.eq_of_mem_replicate hc
  obtain ⟨q, r, hrun, hres⟩ := polynomial.divLoop_spec n h1 hpr p d hp hd hgcd hdeg
    (polynomial.Degree p + 2)
    (List.replicate (polynomial.Degree p - polynomial.Degree d + 1) 0) p
    hp hpc (by rw [List.length_replicate])
    (fun c hc => by rw [hq0red c hc]; exact ⟨le_refl 0, hn0⟩)
    (fun k => by rw [spec.conv_zero_right hq0red, sub_zero])
    (fun s _ => spec.getD_zero_of_all hq0red s)
    (fun h => absurd h (lt_irrefl _))
    (by omega)
  refine ⟨q, r, ?_, hres⟩
  unfold polynomial.Div
  rw [polynomial.Clone_ok_of_canonical hp]
  show GoRes.bind (polynomial.NewZeroPolynomial
      ((polynomial.Degree p : ℤ) - (polynomial.Degree d : ℤ))) _ = _
  have hnz : polynomial.NewZeroPolynomial
      ((polynomial.Degree p : ℤ) - (polynomial.Degree d : ℤ))
      = .ok (List.replicate (polynomial.Degree p - polynomial.Degree d + 1) 0) := by
    unfold polynomial.NewZeroPolynomial
    rw [if_neg (by omega)]
    have harg : ((polynomial.Degree p : ℤ) - (polynomial.Degree d : ℤ) + 1).toNat
        = polynomial.Degree p - polynomial.Degree d + 1 := by omega
    rw [harg]
  rw [hnz]
  exact hrun

/-- Claim C1: over a prime-order field, for every reduced, canonically
stored dividend `p` and every nonzero reduced divisor `d` with
`Degree d ≤ Degree p`, `Div(p, d, f)` returns a pair `(q, r)` with
`Add(Mul(q, d, f), r, f)` equal to `p` and either `Degree r < Degree d` or
`r` the zero polynomial.  (Reduced coefficients and packed storage are how
field polynomials are represented — `Add`/`Mul` index out of range on
padded storage — and `d.getD (Degree d) 0 ≠ 0` states that the divisor is
not the zero polynomial, which is claim C6's separate crash case.) -/
theorem polynomial.Div_correct (n : ℤ) (h1 : 1 < n) (hpr : Prime n) (p d : List ℤ)
    (hp : p.length = polynomial.Degree p + 1)
    (hpc : ∀ c ∈ p, 0 ≤ c ∧ c < n)
    (hd : d.length = polynomial.Degree d + 1)
    (hdc : ∀ c ∈ d, 0 ≤ c ∧ c < n)
    (hd0 : d.getD (polynomial.Degree d) 0 ≠ 0)
    (hdeg : polynomial.Degree d ≤ polynomial.Degree p) :
    ∃ q r m, polynomial.Div p d n = .ok (q, r)
      ∧ polynomial.Mul q d n = .ok m
      ∧ polynomial.Add m r n = .ok p
      ∧ (polynomial.Degree r < polynomial.Degree d ∨ ∀ k, r.getD k 0 = 0) := by
  have hn0 : (0 : ℤ) < n := by omega
  have hgcd : Int.gcd (d.getD (polynomial.Degree d) 0) n = 1 :=
    spec.gcd_one_of_prime hpr (polynomial.leading_not_dvd hdc hd0)
  obtain ⟨q, r, hdiv, hqlen, hqred, hrlen, hrred, hcong, hdisj, hqtop⟩ :=
    polynomial.Div_spec n h1 hpr p d hp hpc hd hgcd hdeg
  have hDq : polynomial.Degree q = polynomial.Degree p - polynomial.Degree d := by
    rcases Nat.eq_or_lt_of_le hdeg with heq | hddlt
    · have := polynomial.Degree_le q
      omega
    · exact le_antisymm (by have := polynomial.Degree_le q; omega)
        (polynomial.le_Degree_of_getD_ne (by omega) (hqtop hddlt))
  have hmg : ∀ ij ∈ polynomial.mulPairs q.length d.length,
      ij.1 + ij.2 < polynomial.Degree q + polynomial.Degree d + 1 := by
    intro ij hij
    unfold polynomial.mulPairs at hij
    simp only [List.mem_flatMap, List.mem_map, List.mem_range] at hij
    obtain ⟨i, hi, j, hj, rfl⟩ := hij
    omega
  obtain ⟨m, hmul, hmlen, hmco⟩ := polynomial.Mul_spec q d n hmg
  have hmlen2 : m.length = polynomial.Degree p + 1 := by omega
  have hmco2 : ∀ k, m.getD k 0 = spec.conv d q k % n := by
    intro k
    rw [hmco k, spec.conv_comm]
  have hrhigh : ∀ k, polynomial.Degree d ≤ k → r.getD k 0 = 0 := by
    intro k hk
    rcases hdisj with hlt | hz
    · exact polynomial.getD_zero_of_Degree_lt (by omega)
    · exact hz k
  have hqDne : 1 ≤ polynomial.Degree p → q.getD (polynomial.Degree q) 0 ≠ 0 := by
    intro hdp1 hq0
    rcases Nat.eq_or_lt_of_le hdeg with heq | hddlt
    · have hql1 : q.length = 1 := by omega
      have hDq0 : polynomial.Degree q = 0 := by
        have := polynomial.Degree_le q
        omega
      rw [hDq0] at hq0
      have hqz : ∀ c ∈ q, c = 0 := by
        intro c hc
        rcases List.mem_iff_getElem.mp hc with ⟨i, hilen, rfl⟩
        have hi0 : i = 0 := by omega
        subst hi0
        rw [← spec.getD_eq_getElem q 0 hilen]
        exact hq0
      have h2 := hcong (polynomial.Degree p)
      rw [spec.conv_zero_right hqz, sub_zero, hrhigh (polynomial.Degree p) hdeg] at h2
      have hb := spec.getD_bounds hn0 hpc (polynomial.Degree p)
      have h3 : p.getD (polynomial.Degree p) 0 = 0 :=
        spec.modEq_zero_eq_zero h2.symm hb.1 hb.2
      exact polynomial.getD_Degree_ne (by omega) h3
    · rw [hDq] at hq0
      exact hqtop hddlt hq0
  have hDm : polynomial.Degree m = polynomial.Degree p := by
    rcases Nat.eq_zero_or_pos (polynomial.Degree p) with hz | hpos
    · have := polynomial.Degree_le m
      omega
    · apply polynomial.Degree_eq_of hpos
      · have hsum : polynomial.Degree q + polynomial.Degree d = polynomial.Degree p := by
          omega
        rw [show m.getD (polynomial.Degree p) 0
            = m.getD (polynomial.Degree q + polynomial.Degree d) 0 by rw [hsum]]
        rw [hmco, spec.conv_top]
        apply spec.emod_ne_zero
        intro hdvd
        rcases (Prime.dvd_mul hpr).mp hdvd with h | h
        · have hb := spec.getD_bounds hn0 hqred (polynomial.Degree q)
          exact spec.not_dvd_of_reduced hb.1 hb.2 (hqDne hpos) h
        · exact polynomial.leading_not_dvd hdc hd0 h
      · intro k hk
        apply List.getD_eq_default
        omega
  have hag1 : m.length ≤ max (polynomial.Degree m) (polynomial.Degree r) + 1 := by
    have := le_max_left (polynomial.Degree m) (polynomial.Degree r)
    omega
  have hag2 : r.length ≤ max (polynomial.Degree m) (polynomial.Degree r) + 1 := by
    have h2 := polynomial.Degree_le r
    have := le_max_right (polynomial.Degree m) (polynomial.Degree r)
    omega
  obtain ⟨s, hsadd, hslen0, hsif, hscong⟩ := polynomial.Add_spec m r n hag1 hag2
  have hmaxeq : max (polynomial.Degree m) (polynomial.Degree r) = polynomial.Degree p := by
    have h2 := polynomial.Degree_le r
    have h3 : polynomial.Degree r ≤ polynomial.Degree m := by omega
    rw [max_eq_left h3, hDm]
  have hslen : s.length = polynomial.Degree p + 1 := by rw [hslen0, hmaxeq]
  have hsp : s = p := by
    apply spec.list_eq_of_getD (by omega)
    intro k hk
    have hcongk : s.getD k 0 ≡ p.getD k 0 [ZMOD n] := by
      calc s.getD k 0
          ≡ m.getD k 0 + r.getD k 0 [ZMOD n] := hscong k
        _ ≡ spec.conv d q k + (p.getD k 0 - spec.conv d q k) [ZMOD n] :=
            Int.ModEq.add (by rw [hmco2 k]; exact spec.emod_modEq _ _) (hcong k)
        _ = p.getD k 0 := by ring
    apply spec.reduced_eq_of_modEq hn0 hcongk ?_ (spec.getD_bounds hn0 hpc k)
    rw [hsif k, if_pos (by omega)]
    exact spec.emod_reduced hn0
  exact ⟨q, r, m, hdiv, hmul, hsp ▸ hsadd, hdisj⟩

/-- Witness for C1 at `n = 7`, dividend `5v² + 4v + 6`, divisor `2v + 1`
(a division test vector of the repository). -/
theorem polynomial.Div_correct_witness :
    ∃ q r m, polynomial.Div [6, 4, 5] [1, 2] 7 = .ok (q, r)
      ∧ polynomial.Mul q [1, 2] 7 = .ok m
      ∧ polynomial.Add m r 7 = .ok [6, 4, 5]
      ∧ (polynomial.Degree r < polynomial.Degree [1, 2] ∨ ∀ k, r.getD k 0 = 0) :=
  polynomial.Div_correct 7 (by norm_num) (by norm_num) [6, 4, 5] [1, 2]
    (by decide) (by decide) (by decide) (by decide) (by decide) (by decide)

/-- Reduction of `getQuotient` once its division is known to return a
degree-0 remainder: the error branch fires exactly on a nonzero constant
term of the remainder. -/
theorem kzg.getQuotient_reduce {p pm q r : List ℤ} {n z y : ℤ}
    (hadd : polynomial.Add p [-y] n = .ok pm)
    (hdiv : polynomial.Div pm [-z, 1] n = .ok (q, r))
    (hDr : polynomial.Degree r = 0)
    (hrlen : 1 ≤ r.length) :
    kzg.getQuotient p z y n = if r.getD 0 0 = 0 then .ok q else .err := by
  have hne1 : ¬ (polynomial.Degree r ≠ polynomial.Degree [(0 : ℤ)]) := by
    rw [hDr]
    exact fun h => h rfl
  have hne2 : ¬ (r.length ≤ polynomial.Degree r ∨
      ([(0 : ℤ)] : List ℤ).length ≤ polynomial.Degree r) := by
    rw [hDr]
    simp only [List.length_singleton]
    omega
  have hEqr : polynomial.Eq r [0] = .ok (r.getD 0 0 == 0) := by
    unfold polynomial.Eq
    rw [if_neg hne1, if_neg hne2, hDr]
    congr 1
    simp [List.all_cons, show List.range 1 = [0] by decide]
  unfold kzg.getQuotient
  rw [hadd]
  show GoRes.bind (polynomial.Div pm [-z, 1] n) _ = _
  rw [hdiv]
  show GoRes.bind (polynomial.Eq r [0]) _ = _
  rw [hEqr]
  show (if (r.getD 0 0 == 0) = true then GoRes.ok q else GoRes.err) = _
  by_cases h0 : r.getD 0 0 = 0
  · rw [if_pos (by simpa using h0), if_pos h0]
  · rw [if_neg (by simpa using h0), if_neg h0]

/-- Shared analysis of `getQuotient`: the division it performs always
succeeds, its remainder is a degree-0 polynomial whose constant term is
congruent to `p(z) - y` mod the order, and `getQuotient` errs exactly when
that constant term is nonzero. -/
theorem kzg.getQuotient_core (n : ℤ) (h1 : 1 < n) (hpr : Prime n) (p : List ℤ)
    (hp : p.length = polynomial.Degree p + 1)
    (hpc : ∀ c ∈ p, 0 ≤ c ∧ c < n) (z y : ℤ) :
    ∃ pm q r, polynomial.Add p [-y] n = .ok pm
      ∧ polynomial.Div pm [-z, 1] n = .ok (q, r)
      ∧ (∀ c ∈ r, 0 ≤ c ∧ c < n)
      ∧ polynomial.Degree r = 0
      ∧ (∀ k, 1 ≤ k → r.getD k 0 = 0)
      ∧ (r.getD 0 0 ≡ spec.sumEval p z - y [ZMOD n])
      ∧ (kzg.getQuotient p z y n = if r.getD 0 0 = 0 then .ok q else .err) := by
  have hn0 : (0 : ℤ) < n := by omega
  have hDnegY : polynomial.Degree [-y] = 0 := rfl
  obtain ⟨pm, hadd, hpmlen0, hpmif, hpmcong⟩ := polynomial.Add_spec p [-y] n
    (by have := le_max_left (polynomial.Degree p) (polynomial.Degree [-y]); omega)
    (by rw [show ([-y] : List ℤ).length = 1 from rfl]; omega)
  have hpmlen : pm.length = polynomial.Degree p + 1 := by
    rw [hpmlen0, hDnegY, Nat.max_zero]
  have hpmred : ∀ c ∈ pm, 0 ≤ c ∧ c < n := by
    apply spec.reduced_of_getD
    intro k hk
    rw [hpmif k, if_pos (by omega)]
    exact spec.emod_reduced hn0
  have hnegYgetD : ∀ k, 1 ≤ k → ([-y] : List ℤ).getD k 0 = 0 := by
    intro k hk
    apply List.getD_eq_default
    rw [show ([-y] : List ℤ).length = 1 from rfl]
    omega
  have hDpm : polynomial.Degree pm = polynomial.Degree p := by
    rcases Nat.eq_zero_or_pos (polynomial.Degree p) with hz | hpos
    · have := polynomial.Degree_le pm
      omega
    · apply polynomial.Degree_eq_of hpos
      · rw [hpmif (polynomial.Degree p), if_pos (by omega), hnegYgetD _ hpos, add_zero]
        have hb := spec.getD_bounds hn0 hpc (polynomial.Degree p)
        rw [Int.emod_eq_of_lt hb.1 hb.2]
        exact polynomial.getD_Degree_ne (by omega)
      · intro k hk
        apply List.getD_eq_default
        omega
  have hpmcanon : pm.length = polynomial.Degree pm + 1 := by
    rw [hDpm]
    exact hpmlen
  have hd2get1 : ([-z, 1] : List ℤ).getD 1 0 = 1 := rfl
  have hDd2 : polynomial.Degree [-z, 1] = 1 := by
    apply polynomial.Degree_eq_of (le_refl 1)
    · rw [hd2get1]
      exact one_ne_zero
    · intro k hk
      apply List.getD_eq_default
      rw [show ([-z, 1] : List ℤ).length = 2 from rfl]
      omega
  have hd2canon : ([-z, 1] : List ℤ).length = polynomial.Degree [-z, 1] + 1 := by
    rw [hDd2]
    rfl
  have hgcd2 : Int.gcd (([-z, 1] : List ℤ).getD (polynomial.Degree [-z, 1]) 0) n = 1 := by
    rw [hDd2, hd2get1]
    simp [Int.gcd]
  have hd2eval : spec.sumEval [-z, 1] z = 0 := by
    unfold spec.sumEval
    rw [show ([-z, 1] : List ℤ).length = 2 from rfl, Finset.sum_range_succ,
      Finset.sum_range_one]
    show (-z) * z ^ 0 + ([-z, 1] : List ℤ).getD 1 0 * z ^ 1 = 0
    rw [hd2get1]
    ring
  have hsumNegY : ∀ K : ℕ, 1 ≤ K →
      ∑ k ∈ Finset.range K, ([-y] : List ℤ).getD k 0 * z ^ k = -y := by
    intro K hK
    rw [spec.sumEval_extend [-y] z (K := K)
      (by rw [show ([-y] : List ℤ).length = 1 from rfl]; omega)]
    unfold spec.sumEval
    rw [show ([-y] : List ℤ).length = 1 from rfl, Finset.sum_range_one]
    show (-y) * z ^ 0 = -y
    ring
  rcases Nat.eq_zero_or_pos (polynomial.Degree p) with hdp0 | hdp1
  · have hDpm0 : polynomial.Degree pm = 0 := by rw [hDpm, hdp0]
    have hdiv : polynomial.Div pm [-z, 1] n = .ok ([], pm) := by
      unfold polynomial.Div
      rw [polynomial.Clone_ok_of_canonical hpmcanon]
      show GoRes.bind (polynomial.NewZeroPolynomial
          ((polynomial.Degree pm : ℤ) - (polynomial.Degree [-z, 1] : ℤ))) _ = _
      rw [hDpm0, hDd2]
      have hnz : polynomial.NewZeroPolynomial (((0 : ℕ) : ℤ) - ((1 : ℕ) : ℤ)) = .ok [] := by
        unfold polynomial.NewZeroPolynomial
        norm_num
      rw [hnz]
      show polynomial.divLoop pm [-z, 1] n (0 + 2) [] pm = _
      rw [show (0 : ℕ) + 2 = 1 + 1 from rfl]
      conv_lhs => unfold polynomial.divLoop
      rw [if_pos (show polynomial.Degree pm < polynomial.Degree [-z, 1] by
        rw [hDpm0, hDd2]; omega)]
    refine ⟨pm, [], pm, hadd, hdiv, hpmred, hDpm0,
      fun k hk => polynomial.getD_zero_of_Degree_lt (by omega), ?_,
      kzg.getQuotient_reduce hadd hdiv hDpm0 (by omega)⟩
    have hsump : spec.sumEval p z = p.getD 0 0 := by
      unfold spec.sumEval
      rw [show p.length = 1 by omega, Finset.sum_range_one, pow_zero, mul_one]
    rw [hpmif 0, if_pos (by omega), hsump]
    show (p.getD 0 0 + ([-y] : List ℤ).getD 0 0) % n ≡ p.getD 0 0 - y [ZMOD n]
    rw [show ([-y] : List ℤ).getD 0 0 = -y from rfl]
    calc (p.getD 0 0 + -y) % n
        ≡ p.getD 0 0 + -y [ZMOD n] := spec.emod_modEq _ _
      _ = p.getD 0 0 - y := by ring
  · obtain ⟨q, r, hdiv, hqlen, hqred, hrlen, hrred, hcong, hdisj, hqtop⟩ :=
      polynomial.Div_spec n h1 hpr pm [-z, 1] hpmcanon hpmred hd2canon hgcd2
        (by rw [hDd2, hDpm]; omega)
    have hDr : polynomial.Degree r = 0 := by
      rcases hdisj with hlt | hz
      · rw [hDd2] at hlt
        omega
      · exact polynomial.Degree_eq_zero_of fun k _ => hz k
    have hrhigh : ∀ k, 1 ≤ k → r.getD k 0 = 0 :=
      fun k hk => polynomial.getD_zero_of_Degree_lt (by omega)
    have hrlen' : r.length = polynomial.Degree p + 1 := by
      rw [hrlen, hDpm]
    have hr0sum : spec.sumEval r z = r.getD 0 0 := by
      have h2 : spec.sumEval r z = r.getD 0 0 * z ^ 0 := by
        unfold spec.sumEval
        apply Finset.sum_eq_single 0
        · intro k hk hkne
          rw [hrhigh k (by omega), zero_mul]
        · intro h0
          exact absurd (Finset.mem_range.mpr (by omega)) h0
      rw [h2, pow_zero, mul_one]
    have hDqle : polynomial.Degree [-z, 1] + polynomial.Degree q
        < polynomial.Degree p + 1 := by
      have h2 := polynomial.Degree_le q
      rw [hDd2, hDpm] at hqlen
      rw [hDd2]
      omega
    have hr0 : r.getD 0 0 ≡ spec.sumEval p z - y [ZMOD n] := by
      have hchain1 : spec.sumEval r z ≡
          (∑ k ∈ Finset.range (polynomial.Degree p + 1), pm.getD k 0 * z ^ k)
          - (∑ k ∈ Finset.range (polynomial.Degree p + 1),
              spec.conv [-z, 1] q k * z ^ k) [ZMOD n] := by
        unfold spec.sumEval
        rw [hrlen', ← Finset.sum_sub_distrib]
        apply spec.sum_modEq
        intro k _
        calc r.getD k 0 * z ^ k
            ≡ (pm.getD k 0 - spec.conv [-z, 1] q k) * z ^ k [ZMOD n] :=
              Int.ModEq.mul (hcong k) Int.ModEq.rfl
          _ = pm.getD k 0 * z ^ k - spec.conv [-z, 1] q k * z ^ k := by ring
      have hconvsum : ∑ k ∈ Finset.range (polynomial.Degree p + 1),
          spec.conv [-z, 1] q k * z ^ k = 0 := by
        rw [spec.conv_eval [-z, 1] q z (polynomial.Degree p + 1) hDqle, hd2eval, zero_mul]
      have hpmsum : (∑ k ∈ Finset.range (polynomial.Degree p + 1), pm.getD k 0 * z ^ k)
          ≡ spec.sumEval p z - y [ZMOD n] := by
        calc (∑ k ∈ Finset.range (polynomial.Degree p + 1), pm.getD k 0 * z ^ k)
            ≡ ∑ k ∈ Finset.range (polynomial.Degree p + 1),
                (p.getD k 0 + ([-y] : List ℤ).getD k 0) * z ^ k [ZMOD n] :=
              spec.sum_modEq fun k _ => Int.ModEq.mul (hpmcong k) Int.ModEq.rfl
          _ = (∑ k ∈ Finset.range (polynomial.Degree p + 1), p.getD k 0 * z ^ k)
              + ∑ k ∈ Finset.range (polynomial.Degree p + 1),
                  ([-y] : List ℤ).getD k 0 * z ^ k := by
              rw [← Finset.sum_add_distrib]
              apply Finset.sum_congr rfl
              intro k _
              ring
          _ = spec.sumEval p z + -y := by
              rw [spec.sumEval_extend p z (by omega), hsumNegY _ (by omega)]
          _ = spec.sumEval p z - y := by ring
      rw [← hr0sum]
      rw [hconvsum, sub_zero] at hchain1
      exact hchain1.trans hpmsum
    exact ⟨pm, q, r, hadd, hdiv, hrred, hDr, hrhigh, hr0,
      kzg.getQuotient_reduce hadd hdiv hDr (by omega)⟩

/-- Claim C2: with `y = Evaluate(p, z)`, dividing `p - y` by the monic
linear factor `v - z` leaves a zero remainder and `getQuotient` succeeds;
and conversely, for any claimed value `y`, `getQuotient` returns an error
exactly when the remainder of that division is not the zero polynomial. -/
theorem kzg.getQuotient_exactness (n : ℤ) (h1 : 1 < n) (hpr : Prime n) (p : List ℤ)
    (hp : p.length = polynomial.Degree p + 1)
    (hpc : ∀ c ∈ p, 0 ≤ c ∧ c < n) (z : ℤ) :
    (∀ y, polynomial.Evaluate p z n = .ok y → ∃ qq, kzg.getQuotient p z y n = .ok qq)
    ∧ (∀ y pm qq r, polynomial.Add p [-y] n = .ok pm →
        polynomial.Div pm [-z, 1] n = .ok (qq, r) →
        (kzg.getQuotient p z y n = .err ↔ ¬ ∀ k, r.getD k 0 = 0)) := by
  have hn0 : (0 : ℤ) < n := by omega
  constructor
  · intro y hy
    obtain ⟨pm, q, r, hadd, hdiv, hrred, hDr, hrhigh, hr0, hgq⟩ :=
      kzg.getQuotient_core n h1 hpr p hp hpc z y
    have hyval : y = spec.sumEval p z % n := by
      have h2 := polynomial.Evaluate_ok p z n (polynomial.ne_nil_of_canonical hp)
      rw [hy] at h2
      exact (GoRes.ok.injEq _ _).mp h2
    have hr00 : r.getD 0 0 = 0 := by
      apply spec.modEq_zero_eq_zero ?_ (spec.getD_bounds hn0 hrred 0).1
        (spec.getD_bounds hn0 hrred 0).2
      calc r.getD 0 0
          ≡ spec.sumEval p z - y [ZMOD n] := hr0
        _ = spec.sumEval p z - spec.sumEval p z % n := by rw [hyval]
        _ ≡ spec.sumEval p z - spec.sumEval p z [ZMOD n] :=
            Int.ModEq.sub Int.ModEq.rfl (spec.emod_modEq _ _)
        _ = 0 := by ring
    exact ⟨q, by rw [hgq, if_pos hr00]⟩
  · intro y pm2 qq r2 hadd2 hdiv2
    obtain ⟨pm, q, r, hadd, hdiv, hrred, hDr, hrhigh, hr0, hgq⟩ :=
      kzg.getQuotient_core n h1 hpr p hp hpc z y
    rw [hadd] at hadd2
    have hpm : pm = pm2 := (GoRes.ok.injEq _ _).mp hadd2
    subst hpm
    rw [hdiv] at hdiv2
    have h3 : (q, r) = (qq, r2) := (GoRes.ok.injEq _ _).mp hdiv2
    injection h3 with h4 h5
    subst h4
    subst h5
    rw [hgq]
    by_cases h0 : r.getD 0 0 = 0
    · rw [if_pos h0]
      constructor
      · intro h
        simp at h
      · intro hnall
        exfalso
        apply hnall
        intro k
        rcases Nat.eq_zero_or_pos k with rfl | hk
        · exact h0
        · exact hrhigh k hk
    · rw [if_neg h0]
      constructor
      · intro _ hall
        exact h0 (hall 0)
      · intro _
        rfl

/-- Witness for C2 at `n = 7`, `p = 2v + 3`, `z = 2`, where `p(2) = 0`. -/
theorem kzg.getQuotient_exactness_witness :
    ∃ qq, kzg.getQuotient [3, 2] 2 0 7 = .ok qq :=
  (kzg.getQuotient_exactness 7 (by norm_num) (by norm_num) [3, 2] (by decide)
    (by decide) 2).1 0 (by decide)
